import Mathlib

/-!
# BLAKE3 engine (blake3-jit): shallow embedding and verification

This file embeds the BLAKE3 hashing core of the repository in Lean 4 and
settles the claims of the specification against it.

Sources embedded:
* `src/hasher.ts` — the `ChunkState`, `Hasher` and `XofReader` classes
  (incremental hashing, Merkle accumulator, XOF output).
* `src/hash.ts` — the one-shot `hash` / `hashPureJS` / `hashSimd` paths.
* `src/wasm-simd.ts` — the message schedule table `MSG_ACCESS_ORDER`; the
  runtime-generated WASM functions are modelled at the lane level (see below).
* `src/utils.ts` — little-endian byte/word conversions.

`src/compress.ts` and `src/constants.ts` are referenced by the sources above
but are not present in the repository snapshot; they are modelled from the
specification (§4.1 and §6 of spec.md), which fixes them bit-exactly.  The
known-answer check for the empty input (claim C8) validates the model against
the official BLAKE3 digest.

Conventions of the embedding:
* a 32-bit word is a `Nat` taken modulo `2^32` at every arithmetic operation;
* a byte array (`Uint8Array`) is a `List Nat` whose elements are reduced
  modulo 256 at every read, matching `Uint8Array` store semantics;
* the flat `Uint32Array` CV stack plus explicit length of the source is
  modelled as a `List` of 8-word chaining values with the TOP of the stack at
  the head (JS index `cvStackLen - 1` is list index 0).  Slots of the flat
  array at or beyond the current length are never read before being
  overwritten, so the list model is observationally faithful;
* in-place writes through aliased typed arrays become functional updates; the
  sources only alias read-only views at the points embedded here, except for
  `ChunkState.output` whose in-place zero-padding of `blockWords` is made
  explicit (it returns the updated `ChunkState` together with the seed).
-/

namespace Blake3

/-! ## 32-bit word operations (all arithmetic modulo 2^32) -/

/-- `2^32`, the word modulus. -/
def w32 : Nat := 4294967296

/-- 32-bit addition: `(a + b) >>> 0` of the source. -/
def add32 (a b : Nat) : Nat := (a + b) % w32

/-- 32-bit rotate right by `n` (for `0 < n < 32`), on words `< 2^32`. -/
def rotr32 (x n : Nat) : Nat := ((x >>> n) ||| (x <<< (32 - n))) % w32

/-! ## Constants

Modelled from the spec: `src/constants.ts` is not in the repository snapshot;
§6 of spec.md fixes the IV, the flag bits and the size constants bit-exactly
(they also appear verbatim in the repository README and in the WASM generator
of `src/wasm-simd.ts`). -/

/-- The BLAKE3 IV (the SHA-256 IV). -/
def IV : List Nat :=
  [0x6a09e667, 0xbb67ae85, 0x3c6ef372, 0xa54ff53a,
   0x510e527f, 0x9b05688c, 0x1f83d9ab, 0x5be0cd19]

/-- Flag bit: first block of a chunk. -/
def CHUNK_START : Nat := 1

/-- Flag bit: last block of a chunk. -/
def CHUNK_END : Nat := 2

/-- Flag bit: parent (interior Merkle) compression. -/
def PARENT : Nat := 4

/-- Flag bit: root compression. -/
def ROOT : Nat := 8

/-- Flag bit: keyed-hash mode. -/
def KEYED_HASH : Nat := 16

/-- Flag bit: derive-key context stage. -/
def DERIVE_KEY_CONTEXT : Nat := 32

/-- Flag bit: derive-key material stage. -/
def DERIVE_KEY_MATERIAL : Nat := 64

/-- Bytes per block. -/
def BLOCK_LEN : Nat := 64

/-- Bytes per chunk. -/
def CHUNK_LEN : Nat := 1024

/-- Default digest length in bytes. -/
def OUT_LEN : Nat := 32

/-- Key length in bytes for keyed mode. -/
def KEY_LEN : Nat := 32

/-! ## Message schedule -/

/-- The message permutation `σ` (`MSG_PERMUTATION` of
`src/microbench/09-wasm-simd.ts`). -/
def MSG_PERMUTATION : List Nat := [2, 6, 3, 10, 7, 0, 4, 13, 1, 11, 12, 5, 9, 14, 15, 8]

/-- Precomputed message access order for all 7 rounds, from `src/wasm-simd.ts`
(`MSG_ACCESS_ORDER`): row `r` lists the 16 message-word indices consumed in
order by round `r`'s eight G applications. -/
def MSG_ACCESS_ORDER : List Nat :=
  [0, 1, 2, 3, 4, 5, 6, 7, 8, 9, 10, 11, 12, 13, 14, 15,
   2, 6, 3, 10, 7, 0, 4, 13, 1, 11, 12, 5, 9, 14, 15, 8,
   3, 4, 10, 12, 13, 2, 7, 14, 6, 5, 9, 0, 11, 15, 8, 1,
   10, 7, 12, 9, 14, 3, 13, 15, 4, 0, 11, 2, 5, 8, 1, 6,
   12, 13, 9, 11, 15, 10, 14, 8, 7, 2, 5, 3, 0, 1, 6, 4,
   9, 14, 11, 5, 8, 12, 15, 1, 13, 3, 0, 10, 2, 6, 4, 7,
   11, 15, 5, 0, 1, 9, 8, 6, 14, 10, 2, 12, 3, 4, 7, 13]

/-- One step of `computePermutations` of `src/microbench/09-wasm-simd.ts`:
`next[i] = current[σ[i]]`. -/
def permuteOnce (cur : List Nat) : List Nat := MSG_PERMUTATION.map (fun p => cur.get! p)

/-- The `r`-fold application of `σ` to the identity order `0..15`. -/
def permuteIter : Nat → List Nat
  | 0 => List.range 16
  | n + 1 => permuteOnce (permuteIter n)

/-! ## The compression function

Modelled from the spec: `src/compress.ts` is not in the repository snapshot;
§4.1 of spec.md specifies the algorithm completely (state construction, the
mixing function G, 7 rounds with the precomputed per-round message schedule,
and the 16-word extended output).  The callers embedded below pass a
`truncate` flag selecting the 8-word half; the model always produces the full
16 words and the callers take what the source keeps. -/

/-- The mixing function G on a 16-word state (spec §4.1). -/
def gmix (st : List Nat) (a b c d mx my : Nat) : List Nat :=
  let sa := add32 (add32 (st.get! a) (st.get! b)) mx
  let sd := rotr32 ((st.get! d) ^^^ sa) 16
  let sc := add32 (st.get! c) sd
  let sb := rotr32 ((st.get! b) ^^^ sc) 12
  let sa2 := add32 (add32 sa sb) my
  let sd2 := rotr32 (sd ^^^ sa2) 8
  let sc2 := add32 sc sd2
  let sb2 := rotr32 (sb ^^^ sc2) 7
  (((st.set a sa2).set b sb2).set c sc2).set d sd2

/-- One round: 4 column G calls then 4 diagonal G calls, consuming the 16
message words in the order of row `r` of the schedule (spec §4.1). -/
def roundFn (st m : List Nat) (r : Nat) : List Nat :=
  let mi := fun i => m.get! (MSG_ACCESS_ORDER.get! (16 * r + i))
  let st := gmix st 0 4 8 12 (mi 0) (mi 1)
  let st := gmix st 1 5 9 13 (mi 2) (mi 3)
  let st := gmix st 2 6 10 14 (mi 4) (mi 5)
  let st := gmix st 3 7 11 15 (mi 6) (mi 7)
  let st := gmix st 0 5 10 15 (mi 8) (mi 9)
  let st := gmix st 1 6 11 12 (mi 10) (mi 11)
  let st := gmix st 2 7 8 13 (mi 12) (mi 13)
  gmix st 3 4 9 14 (mi 14) (mi 15)

/-- The compression function, full 16-word extended output (spec §4.1).
`cv` is the 8-word input chaining value, `block` the 16 message words. -/
def compress16 (cv block : List Nat) (counter blockLen flags : Nat) : List Nat :=
  let st := cv.take 8 ++ IV.take 4 ++
    [counter % w32, (counter / w32) % w32, blockLen % w32, flags % w32]
  let st := roundFn st block 0
  let st := roundFn st block 1
  let st := roundFn st block 2
  let st := roundFn st block 3
  let st := roundFn st block 4
  let st := roundFn st block 5
  let st := roundFn st block 6
  ((List.range 8).map fun i => st.get! i ^^^ st.get! (i + 8)) ++
    ((List.range 8).map fun i => st.get! (i + 8) ^^^ (cv.get! i) % w32)

/-- The 8-word chaining-value half of the compression output. -/
def compressCv (cv block : List Nat) (counter blockLen flags : Nat) : List Nat :=
  (compress16 cv block counter blockLen flags).take 8

/-! ## Little-endian byte/word conversions (`src/utils.ts`) -/

/-- Read byte `i` of a byte array; `Uint8Array` stores are modulo 256 and
out-of-range reads on the embedded lists do not occur (they default to 0). -/
def byteAt (bs : List Nat) (i : Nat) : Nat := (bs.getD i 0) % 256

/-- Pack 4 consecutive bytes little-endian into one word, missing bytes zero:
the word built by `readLittleEndianWordsPartial` of `src/utils.ts`. -/
def wordLE (bs : List Nat) (off : Nat) : Nat :=
  byteAt bs off + 256 * byteAt bs (off + 1) + 65536 * byteAt bs (off + 2) +
    16777216 * byteAt bs (off + 3)

/-- The 16 block words of the 64-byte block starting at byte `off`, missing
bytes read as zero (`readLittleEndianWordsFull` / `readLittleEndianWordsPartial`
of `src/utils.ts`; on little-endian systems the direct `Uint32Array` view reads
the same words). -/
def blockWordsAt (bs : List Nat) (off : Nat) : List Nat :=
  (List.range 16).map fun i => wordLE bs (off + 4 * i)

/-- Serialize a word list to little-endian bytes
(`writeLittleEndianBytesPartial` of `src/utils.ts`). -/
def bytesLE (ws : List Nat) : List Nat :=
  ws.flatMap fun w => [w % 256, w / 256 % 256, w / 65536 % 256, w / 16777216 % 256]

/-! ## ChunkState (`src/hasher.ts`) -/

/-- Chunk state: accumulates up to 1024 bytes and produces a chaining value.
`blockWords` is the 16-word block buffer; bytes are packed into it
little-endian as they arrive. -/
structure ChunkState where
  chainingValue : List Nat
  chunkCounter : Nat
  blockWords : List Nat
  blockLen : Nat
  blocksCompressed : Nat
  flags : Nat
deriving Repr, DecidableEq

/-- `new ChunkState(keyWords, chunkCounter, flags)`. -/
def ChunkState.new (keyWords : List Nat) (chunkCounter flags : Nat) : ChunkState :=
  ⟨keyWords, chunkCounter, List.replicate 16 0, 0, 0, flags⟩

/-- `ChunkState.startFlag()`. -/
def ChunkState.startFlag (cs : ChunkState) : Nat :=
  if cs.blocksCompressed = 0 then CHUNK_START else 0

/-- `ChunkState.len()`. -/
def ChunkState.len (cs : ChunkState) : Nat := cs.blocksCompressed * BLOCK_LEN + cs.blockLen

/-- The `blockLen === BLOCK_LEN` arm of `ChunkState.update`: compress the full
buffered block into the chaining value and reset the buffer length. -/
def ChunkState.compressFullBlock (cs : ChunkState) : ChunkState :=
  { cs with
    chainingValue :=
      compressCv cs.chainingValue cs.blockWords cs.chunkCounter BLOCK_LEN
        (cs.flags ||| cs.startFlag)
    blocksCompressed := cs.blocksCompressed + 1
    blockLen := 0 }

/-- One byte store of `ChunkState.update`'s byte loop: at byte position `pos`
of the block buffer, an aligned byte assigns the word, an unaligned byte is
OR-ed in at its byte lane. -/
def writeBlockByte (bw : List Nat) (pos b : Nat) : List Nat :=
  if pos % 4 = 0 then bw.set (pos / 4) (b % 256)
  else bw.set (pos / 4) ((bw.get! (pos / 4)) ||| ((b % 256) <<< (pos % 4 * 8)))

/-- The byte-write loop of `ChunkState.update`: store `bytes` at positions
`blockLen, blockLen+1, …` and advance `blockLen` by their count — written
byte-recursively, advancing `blockLen` as each byte lands at position
`blockLen + i`.  (The aligned full-block fast paths of the source store the
same words.) -/
def ChunkState.writeBytes (cs : ChunkState) : List Nat → ChunkState
  | [] => cs
  | b :: rest =>
    ChunkState.writeBytes
      { cs with
        blockWords := writeBlockByte cs.blockWords cs.blockLen b
        blockLen := cs.blockLen + 1 }
      rest

/-- `ChunkState.update(input, …)`: repeatedly compress the buffer when it is
full and refill it with up to `BLOCK_LEN - blockLen` bytes. -/
def ChunkState.update (cs : ChunkState) (input : List Nat) : ChunkState :=
  if input.isEmpty then cs
  else
    let cs1 := if cs.blockLen = BLOCK_LEN then cs.compressFullBlock else cs
    let tk := min (BLOCK_LEN - cs1.blockLen) input.length
    if h : tk = 0 then
      cs1 -- unreachable (`blockLen ≤ 64` invariant); termination guard
    else
      ChunkState.update (cs1.writeBytes (input.take tk)) (input.drop tk)
termination_by input.length
decreasing_by
  simp only [List.length_drop]
  exact Nat.sub_lt (Nat.lt_of_lt_of_le (Nat.pos_of_ne_zero h) (Nat.min_le_right _ _))
    (Nat.pos_of_ne_zero h)

/-- The output-seed record produced by `ChunkState.output` and
`Hasher.finalizeOutput`: the parameters of the final (root-candidate)
compression. -/
structure OutSeed where
  inputCv : List Nat
  blockWords : List Nat
  blockLen : Nat
  counter : Nat
  flags : Nat
deriving Repr, DecidableEq

/-- The in-place zero-padding at the start of `ChunkState.output`: words from
`ceil(blockLen / 4)` up are cleared to drop stale data of previous blocks. -/
def ChunkState.zeroPad (cs : ChunkState) : ChunkState :=
  { cs with
    blockWords :=
      cs.blockWords.take ((cs.blockLen + 3) / 4) ++
        List.replicate (16 - (cs.blockLen + 3) / 4) 0 }

/-- `ChunkState.output()`.  The source mutates `this.blockWords` (the
zero-padding) and returns a record aliasing the chunk's buffers; the model
returns the seed together with the updated `ChunkState`. -/
def ChunkState.output (cs : ChunkState) : OutSeed × ChunkState :=
  let cs' := cs.zeroPad
  (⟨cs'.chainingValue, cs'.blockWords, cs'.blockLen, cs'.chunkCounter,
    cs'.flags ||| cs'.startFlag ||| CHUNK_END⟩, cs')

/-! ## Hasher (`src/hasher.ts`) -/

/-- The incremental hasher: current chunk, key words, CV stack (top of the
stack at the head of the list), mode flags. -/
structure Hasher where
  chunkState : ChunkState
  keyWords : List Nat
  cvStack : List (List Nat)
  flags : Nat
deriving Repr, DecidableEq

/-- `new Hasher(keyWords, flags)`. -/
def Hasher.new (keyWords : List Nat) (flags : Nat) : Hasher :=
  ⟨ChunkState.new keyWords 0 flags, keyWords, [], flags⟩

/-- `new Hasher()`: plain hashing mode. -/
def freshHasher : Hasher := Hasher.new IV 0

/-- A parent compression: block = left CV ‖ right CV, counter 0, full block
length, flags `mode | PARENT`, keeping the 8-word half. -/
def parentCvOf (kw : List Nat) (fl : Nat) (left right : List Nat) : List Nat :=
  compressCv kw (left ++ right) 0 BLOCK_LEN (fl ||| PARENT)

/-- The merge loop of `Hasher.addChunkCv`: while the chunk count is even, pop
the left sibling and replace the new CV by their parent, then push.  The
source loop has no emptiness guard (the stack is provably long enough, claim
C2) and does not terminate when called with `totalChunks = 0` (never done);
the model adds `tc ≠ 0` for totality and defaults an (unreachable) pop of an
empty stack to a zero CV. -/
def Hasher.addChunkCvLoop (kw : List Nat) (fl : Nat) (stack : List (List Nat))
    (newCv : List Nat) (tc : Nat) : List (List Nat) :=
  if h : tc % 2 = 0 ∧ tc ≠ 0 then
    Hasher.addChunkCvLoop kw fl stack.tail
      (parentCvOf kw fl (stack.headD (List.replicate 8 0)) newCv) (tc / 2)
  else newCv :: stack
termination_by tc
decreasing_by omega

/-- The `chunkState.len() === CHUNK_LEN` arm of `Hasher.update`: compress the
completed chunk's final block, push the CV through the merge loop and open a
new chunk. -/
def Hasher.emitChunk (h : Hasher) : Hasher :=
  let out := (h.chunkState.output).1
  let chunkCv := compressCv out.inputCv out.blockWords out.counter out.blockLen out.flags
  let tc := h.chunkState.chunkCounter + 1
  { h with
    cvStack := Hasher.addChunkCvLoop h.keyWords h.flags h.cvStack chunkCv tc
    chunkState := ChunkState.new h.keyWords tc h.flags }

/-- `Hasher.update(input)`. -/
def Hasher.update (h : Hasher) (input : List Nat) : Hasher :=
  if input.isEmpty then h
  else
    let h1 := if h.chunkState.len = CHUNK_LEN then h.emitChunk else h
    let tk := min (CHUNK_LEN - h1.chunkState.len) input.length
    if htk : tk = 0 then
      h1 -- unreachable (`len ≤ 1024` invariant); termination guard
    else
      Hasher.update { h1 with chunkState := h1.chunkState.update (input.take tk) }
        (input.drop tk)
termination_by input.length
decreasing_by
  simp only [List.length_drop]
  exact Nat.sub_lt (Nat.lt_of_lt_of_le (Nat.pos_of_ne_zero htk) (Nat.min_le_right _ _))
    (Nat.pos_of_ne_zero htk)

/-- The stack-draining loop of `Hasher.finalizeOutput`: fold the current CV
into popped entries with parent compressions; when one entry (the bottom)
remains, return the root seed instead of compressing.  The source enters the
loop only with a non-empty stack; the `[]` case is unreachable and modelled
with a zero left CV. -/
def Hasher.finalizeMergeLoop (kw : List Nat) (fl : Nat) :
    List (List Nat) → List Nat → OutSeed
  | [], cv => ⟨kw, List.replicate 8 0 ++ cv, BLOCK_LEN, 0, fl ||| PARENT⟩
  | [bottom], cv => ⟨kw, bottom ++ cv, BLOCK_LEN, 0, fl ||| PARENT⟩
  | top :: rest, cv => Hasher.finalizeMergeLoop kw fl rest (parentCvOf kw fl top cv)

/-- `Hasher.finalizeOutput()`.  NOTE the destructive effect faithfully kept
from the source: when the CV stack is non-empty the loop decrements
`cvStackLen` down to zero, so the returned hasher has an empty stack. -/
def Hasher.finalizeOutput (h : Hasher) : OutSeed × Hasher :=
  let (out0, cs') := h.chunkState.output
  if h.cvStack.isEmpty then (out0, { h with chunkState := cs' })
  else
    let cv := compressCv out0.inputCv out0.blockWords out0.counter out0.blockLen out0.flags
    (Hasher.finalizeMergeLoop h.keyWords h.flags h.cvStack cv,
      { h with chunkState := cs', cvStack := [] })

/-! ## XofReader (`src/hasher.ts`) -/

/-- Output-stream reader state for XOF mode. -/
structure XofReader where
  inputCv : List Nat
  blockWords : List Nat
  counter : Nat
  blockLen : Nat
  flags : Nat
  outputBlock : List Nat
  outputBlockOffset : Nat
deriving Repr, DecidableEq

/-- The `XofReader` constructor: ROOT is OR-ed into the flags and
`outputBlockOffset = 64` forces generation on the first read. -/
def XofReader.new (inputCv blockWords : List Nat) (counter blockLen flags : Nat) : XofReader :=
  ⟨inputCv, blockWords, counter, blockLen, flags ||| ROOT, List.replicate 16 0, 64⟩

/-- `Hasher.finalizeXof()` (the constructor copies the seed arrays; values are
immutable here). -/
def Hasher.finalizeXof (h : Hasher) : XofReader × Hasher :=
  let (out, h') := h.finalizeOutput
  (XofReader.new out.inputCv out.blockWords out.counter out.blockLen out.flags, h')

/-- The "generate new output block if needed" step of `XofReader.read`:
compress the seed at the current counter (full 16-word output) and advance
the counter. -/
def XofReader.refill (r : XofReader) : XofReader :=
  if 64 ≤ r.outputBlockOffset then
    { r with
      outputBlock := compress16 r.inputCv r.blockWords r.counter r.blockLen r.flags
      counter := r.counter + 1
      outputBlockOffset := 0 }
  else r

theorem XofReader.refill_offset_lt (r : XofReader) : r.refill.outputBlockOffset < 64 := by
  unfold XofReader.refill
  split
  · exact Nat.zero_lt_succ 63
  · omega

/-- `XofReader.read(length)`: refill when the buffered block is exhausted,
then copy `min(64 - offset, remaining)` bytes of the little-endian
serialization of the buffered block. -/
def XofReader.read (r : XofReader) : Nat → List Nat × XofReader
  | 0 => ([], r)
  | n + 1 =>
    let r1 := r.refill
    let toCopy := min (64 - r1.outputBlockOffset) (n + 1)
    let bytes := ((bytesLE r1.outputBlock).drop r1.outputBlockOffset).take toCopy
    let rest :=
      XofReader.read { r1 with outputBlockOffset := r1.outputBlockOffset + toCopy }
        (n + 1 - toCopy)
    (bytes ++ rest.1, rest.2)
termination_by n => n + 1
decreasing_by
  have := XofReader.refill_offset_lt r
  omega

/-- `Hasher.finalize(outputLength)`: for at most 64 bytes a single root
compression serialized little-endian; for more, delegate to a fresh
`XofReader` — NOTE: the source calls `this.finalizeXof()` after
`this.finalizeOutput()` already ran on the same hasher. -/
def Hasher.finalize (h : Hasher) (outputLength : Nat) : List Nat × Hasher :=
  let (out, h') := h.finalizeOutput
  if outputLength ≤ 64 then
    ((bytesLE (compress16 out.inputCv out.blockWords out.counter out.blockLen
      (out.flags ||| ROOT))).take outputLength, h')
  else
    let (xof, h2) := h'.finalizeXof
    ((xof.read outputLength).1, h2)

/-- The little-endian word load of both branches of `Hasher.newKeyed`. -/
def leWords8 (key : List Nat) : List Nat := (List.range 8).map fun i => wordLE key (4 * i)

/-- `Hasher.newKeyed(key)`: throws unless the key is exactly 32 bytes. -/
def Hasher.newKeyed (key : List Nat) : Except String Hasher :=
  if key.length ≠ KEY_LEN then Except.error "Key must be 32 bytes"
  else Except.ok (Hasher.new (leWords8 key) KEYED_HASH)

/-! ## One-shot hashing (`src/hash.ts`)

The one-shot paths are plain-mode only: they use `IV` as key words and mode
flags `0` throughout, exactly as the source hard-codes them.  The endianness /
alignment branches of the source load identical words (`blockWordsAt`); the
little-endian aligned path is the modelled semantics, as the spec's scope
fixes (§1). -/

/-- The digest emission shared by all output sites of `src/hash.ts`: the first
`outputLen` bytes of the little-endian serialization of the output words.  The
source's output buffer holds at most 64 bytes (16 words), so
`result.set(new Uint8Array(out.buffer, 0, outputLen))` raises a `RangeError`
for `outputLen > 64`; that failure is modelled as `none`. -/
def emitDigest (out : List Nat) (outputLen : Nat) : Option (List Nat) :=
  if outputLen ≤ 64 then some ((bytesLE out).take outputLen) else none

/-- `hashChunkWithWords(input, …)`: the chaining value of one chunk of
`inputLen ∈ [1, 1024]` bytes at `inputOffset`, folding its blocks from `IV`
with `CHUNK_START` on the first and `CHUNK_END` on the last block; the last
block may be short and is zero-padded.  (The source's three load paths —
aligned view, full read, padded read — produce these same block words.) -/
def hashChunkWithWords (input : List Nat) (inputOffset inputLen chunkCounter flags : Nat) :
    List Nat :=
  let totalBlocks := inputLen / 64 + (if inputLen % 64 = 0 then 0 else 1)
  (List.range totalBlocks).foldl
    (fun cv blockIdx =>
      let isLast := blockIdx = totalBlocks - 1
      let blockLen := if isLast ∧ inputLen % 64 ≠ 0 then inputLen % 64 else BLOCK_LEN
      let blockFlags := flags ||| (if blockIdx = 0 then CHUNK_START else 0) |||
        (if isLast then CHUNK_END else 0)
      compressCv cv (blockWordsAt input (inputOffset + 64 * blockIdx)) chunkCounter blockLen
        blockFlags)
    IV

/-- `hashChunkRoot(input, …)`: single-chunk input, the chunk is the root; the
final (possibly partial, possibly empty) block carries
`CHUNK_END | ROOT` and produces the 16-word extended output. -/
def hashChunkRoot (input : List Nat) (inputOffset inputLen chunkCounter flags : Nat) :
    List Nat :=
  let totalBlocks := max (inputLen / 64 + (if inputLen % 64 = 0 then 0 else 1)) 1
  let cv := (List.range (totalBlocks - 1)).foldl
    (fun cv blockIdx =>
      compressCv cv (blockWordsAt input (inputOffset + 64 * blockIdx)) chunkCounter BLOCK_LEN
        (flags ||| (if blockIdx = 0 then CHUNK_START else 0)))
    IV
  let lastLen := if inputLen = 0 then 0 else if inputLen % 64 = 0 then BLOCK_LEN else inputLen % 64
  compress16 cv (blockWordsAt input (inputOffset + 64 * (totalBlocks - 1))) chunkCounter lastLen
    (flags ||| (if totalBlocks - 1 = 0 then CHUNK_START else 0) ||| CHUNK_END ||| ROOT)

/-- The chunk-CV merge loop shared verbatim by `hashPureJS` and `hashSimd`
(lines 763–791, 807–831, 841–869, 1208–1248 of `src/hash.ts`): merge completed
subtrees while the chunk count is even and the stack is non-empty, but skip
the final merge (leaving it for finalization, which must apply ROOT) when it
would produce the root, then push. -/
def mergePushSkip (stack : List (List Nat)) (cv0 : List Nat) (tc : Nat) (isLast : Bool) :
    List (List Nat) :=
  match stack with
  | [] => cv0 :: []
  | top :: rest =>
    if tc % 2 ≠ 0 then cv0 :: stack
    else if rest.isEmpty ∧ isLast then cv0 :: stack
    else mergePushSkip rest (parentCvOf IV 0 top cv0) (tc / 2) isLast

/-- The stack finalization of `hashPureJS` (lines 874–927): merge the two top
entries repeatedly; the merge that empties the stack is the root and carries
`PARENT | ROOT`.  A single remaining entry (dead code for multi-chunk inputs)
is compressed as a root block padded with zeros, flags `ROOT` only. -/
def pureJSFinal (stack : List (List Nat)) (outputLen : Nat) : Option (List Nat) :=
  match stack with
  | right :: left :: rest =>
    if rest.isEmpty then
      emitDigest (compress16 IV (left ++ right) 0 BLOCK_LEN (PARENT ||| ROOT)) outputLen
    else pureJSFinal (parentCvOf IV 0 left right :: rest) outputLen
  | _ =>
    emitDigest
      (compress16 IV ((stack.headD (List.replicate 8 0)).take 8 ++ List.replicate 8 0) 0
        BLOCK_LEN ROOT) outputLen
termination_by stack.length
decreasing_by simp only [List.length_cons]; omega

/-- `hashPureJS(input, outputLen)`. -/
def hashPureJS (input : List Nat) (outputLen : Nat) : Option (List Nat) :=
  let inputLen := input.length
  if inputLen = 0 then
    emitDigest (compress16 IV (List.replicate 16 0) 0 0 (CHUNK_START ||| CHUNK_END ||| ROOT))
      outputLen
  else
  let numChunks := (inputLen + 1023) / 1024
  if numChunks = 1 then emitDigest (hashChunkRoot input 0 inputLen 0 0) outputLen
  else
    let fullChunks := inputLen / 1024
    let lastChunkLen := inputLen % 1024
    let stack := (List.range fullChunks).foldl
      (fun stack chunkIdx =>
        let chunkCv := hashChunkWithWords input (1024 * chunkIdx) 1024 chunkIdx 0
        mergePushSkip stack chunkCv (chunkIdx + 1)
          (decide (chunkIdx = fullChunks - 1 ∧ lastChunkLen = 0)))
      []
    let stack :=
      if lastChunkLen = 0 then stack
      else
        mergePushSkip stack
          (hashChunkWithWords input (1024 * fullChunks) lastChunkLen fullChunks 0)
          (fullChunks + 1) true
    pureJSFinal stack outputLen

/-! ### The SIMD path (`hashSimd` of `src/hash.ts`)

The WASM functions `compressChunks4x`, `compress4x` and `compressParent` are
generated at runtime as straight-line bytecode; executing WebAssembly is
outside this embedding.  They are modelled from the spec (§4.2): each 128-bit
lane carries one chunk and the per-lane effect of the generated instruction
sequence is the scalar compression — `i32x4.add`, `v128.xor`, the two byte
shuffles (rotr 16 / rotr 8) and the shift-or pairs (rotr 12 / rotr 7) act
independently per 32-bit lane, mirroring G exactly, and `compressParent` is
the scalar parent compression with `IV`, counter 0, block length 64 and flags
`PARENT`.  The transposed memory layout is bookkeeping: the model reads each
lane's block words directly. -/

/-- Modelled from the spec: one lane of the batched `compressChunks4x` WASM
call — a full 1024-byte chunk at chunk index `cIdx`, 16 full blocks folded
from `IV`, `CHUNK_START` at position 0 and `CHUNK_END` at position 15
(the generated code ORs exactly those position bits into the base flags). -/
def batchLaneCv (input : List Nat) (cIdx : Nat) : List Nat :=
  (List.range 16).foldl
    (fun cv pos =>
      compressCv cv (blockWordsAt input (1024 * cIdx + 64 * pos)) cIdx BLOCK_LEN
        ((if pos = 0 then CHUNK_START else 0) ||| (if pos = 15 then CHUNK_END else 0)))
    IV

/-- Modelled from the spec: one lane of the block-by-block `compress4x` path
of `hashSimd` — the lane's CV is updated only for blocks with data
(`if (blockLens[g] === 0) continue`), with the block length and
`CHUNK_START`/`CHUNK_END` flags computed per block as in lines 1141–1167. -/
def standardLaneCv (input : List Nat) (cIdx : Nat) : List Nat :=
  let chunkStart := 1024 * cIdx
  let chunkLen := min 1024 (input.length - chunkStart)
  let totalBlocksInChunk := max ((chunkLen + 63) / 64) 1
  (List.range 16).foldl
    (fun cv blockIdx =>
      let bLen := if chunkLen ≤ 64 * blockIdx then 0 else min 64 (chunkLen - 64 * blockIdx)
      if bLen = 0 then cv
      else
        compressCv cv (blockWordsAt input (chunkStart + 64 * blockIdx)) cIdx bLen
          ((if blockIdx = 0 then CHUNK_START else 0) |||
            (if blockIdx = totalBlocksInChunk - 1 then CHUNK_END else 0)))
    IV

/-- The group loop of `hashSimd` (lines 1069–1252): process chunks in groups
of up to 4 — the batched path for 4 full chunks, the block-by-block path
otherwise — and merge each produced CV into the stack in chunk order. -/
def simdGroups (input : List Nat) (numChunks numFullChunks : Nat) (chunkIdx : Nat)
    (stack : List (List Nat)) : List (List Nat) :=
  if hlt : chunkIdx < numChunks then
    let groupSize := min 4 (numChunks - chunkIdx)
    let cvs :=
      if groupSize = 4 ∧ chunkIdx + 4 ≤ numFullChunks then
        (List.range 4).map fun g => batchLaneCv input (chunkIdx + g)
      else
        (List.range groupSize).map fun g => standardLaneCv input (chunkIdx + g)
    let stack := (List.range groupSize).foldl
      (fun st g =>
        mergePushSkip st (cvs.getD g (List.replicate 8 0)) (chunkIdx + g + 1)
          (decide (chunkIdx + g = numChunks - 1)))
      stack
    simdGroups input numChunks numFullChunks (chunkIdx + groupSize) stack
  else stack
termination_by numChunks - chunkIdx
decreasing_by
  have h4 : 0 < min 4 (numChunks - chunkIdx) := by omega
  omega

/-- The stack finalization of `hashSimd` (lines 1255–1319): identical to
`pureJSFinal` except that the (equally dead) empty-stack case falls back to
`hashPureJS`. -/
def simdFinal (input : List Nat) (stack : List (List Nat)) (outputLen : Nat) :
    Option (List Nat) :=
  match stack with
  | right :: left :: rest =>
    if rest.isEmpty then
      emitDigest (compress16 IV (left ++ right) 0 BLOCK_LEN (PARENT ||| ROOT)) outputLen
    else simdFinal input (parentCvOf IV 0 left right :: rest) outputLen
  | [single] =>
    emitDigest (compress16 IV (single.take 8 ++ List.replicate 8 0) 0 BLOCK_LEN ROOT) outputLen
  | [] => hashPureJS input outputLen
termination_by stack.length
decreasing_by simp only [List.length_cons]; omega

/-- `hashSimd(input, outputLen)` with WASM memory available (without it the
source returns `hashPureJS` directly). -/
def hashSimd (input : List Nat) (outputLen : Nat) : Option (List Nat) :=
  let numChunks := (input.length + 1023) / 1024
  if numChunks < 4 then hashPureJS input outputLen
  else
    simdFinal input (simdGroups input numChunks (input.length / 1024) 0 []) outputLen

/-- `hash(input, outputLength)`: dispatch on the 4-chunk SIMD threshold.
`simd` abstracts `ensureSimdSync()` (whether WASM SIMD initialization
succeeded in the host environment). -/
def hash (simd : Bool) (input : List Nat) (outputLength : Nat) : Option (List Nat) :=
  if 4 * CHUNK_LEN ≤ input.length ∧ simd then hashSimd input outputLength
  else hashPureJS input outputLength

/-! ## Basic structural lemmas -/

theorem compress16_length (cv block : List Nat) (counter blockLen flags : Nat) :
    (compress16 cv block counter blockLen flags).length = 16 := by
  simp [compress16]

theorem compressCv_length (cv block : List Nat) (counter blockLen flags : Nat) :
    (compressCv cv block counter blockLen flags).length = 8 := by
  simp [compressCv, compress16_length]

theorem parentCvOf_length (kw : List Nat) (fl : Nat) (l r : List Nat) :
    (parentCvOf kw fl l r).length = 8 := compressCv_length ..

theorem blockWordsAt_length (bs : List Nat) (off : Nat) : (blockWordsAt bs off).length = 16 := by
  simp [blockWordsAt]

/-- The number of set bits of `N` (the spec's `popcount`). -/
def popcount (n : Nat) : Nat :=
  if n = 0 then 0 else popcount (n / 2) + n % 2
termination_by n
decreasing_by omega

theorem popcount_zero : popcount 0 = 0 := by unfold popcount; simp

theorem popcount_step (n : Nat) (h : n ≠ 0) : popcount n = popcount (n / 2) + n % 2 := by
  rw [popcount]; simp [h]

theorem popcount_pos (n : Nat) (h : n ≠ 0) : 0 < popcount n := by
  induction n using Nat.strong_induction_on with
  | _ n ih =>
    rw [popcount_step n h]
    rcases Nat.even_or_odd n with he | ho
    · have h2 : n / 2 ≠ 0 := by
        rcases he with ⟨k, hk⟩
        omega
      have := ih (n / 2) (by omega) h2
      omega
    · have : n % 2 = 1 := Nat.odd_iff.mp ho
      omega

/-- `popcount` of an even successor: merging relation used by the accumulator:
for `tc ≠ 0` even, `popcount (tc - 1) = popcount (tc / 2 - 1) + 1`. -/
theorem popcount_pred_even (tc : Nat) (h0 : tc ≠ 0) (he : tc % 2 = 0) :
    popcount (tc - 1) = popcount (tc / 2 - 1) + 1 := by
  have h1 : tc - 1 ≠ 0 := by omega
  rw [popcount_step _ h1]
  have h2 : (tc - 1) / 2 = tc / 2 - 1 := by omega
  have h3 : (tc - 1) % 2 = 1 := by omega
  rw [h2, h3]

theorem popcount_succ_even (tc : Nat) (h0 : tc ≠ 0) (he : tc % 2 = 0) :
    popcount tc = popcount (tc / 2) := by
  rw [popcount_step _ h0, he]; omega

theorem popcount_odd (tc : Nat) (ho : tc % 2 ≠ 0) :
    popcount tc = popcount (tc - 1) + 1 := by
  have h0 : tc ≠ 0 := by omega
  rw [popcount_step _ h0]
  rcases Nat.eq_zero_or_pos (tc - 1) with h1 | h1
  · have : tc = 1 := by omega
    subst this
    simp [popcount_zero]
  · rw [popcount_step (tc - 1) (by omega)]
    have h2 : (tc - 1) / 2 = tc / 2 := by omega
    have h3 : (tc - 1) % 2 = 0 := by omega
    rw [h2, h3]
    omega

/-! ## Byte-at-a-time semantics of `update`

`ChunkState.update` and `Hasher.update` consume their input in maximal runs
bounded by the block / chunk boundary.  The lemmas below show each equals the
left fold of a one-byte step, which is the convenient induction principle for
every property of the streaming interface. -/

/-- One byte fed to a `ChunkState`: compress the buffer first when it is
full, then store the byte. -/
def ChunkState.feedByte (cs : ChunkState) (b : Nat) : ChunkState :=
  let cs1 := if cs.blockLen = BLOCK_LEN then cs.compressFullBlock else cs
  { cs1 with
    blockWords := writeBlockByte cs1.blockWords cs1.blockLen b
    blockLen := cs1.blockLen + 1 }

/-- One byte fed to a `Hasher`: emit the completed chunk first when it is
full, then feed the byte to the current chunk. -/
def Hasher.feedByte (h : Hasher) (b : Nat) : Hasher :=
  let h1 := if h.chunkState.len = CHUNK_LEN then h.emitChunk else h
  { h1 with chunkState := h1.chunkState.feedByte b }

theorem ChunkState.writeBytes_nil (cs : ChunkState) : cs.writeBytes [] = cs := rfl

theorem ChunkState.writeBytes_cons (cs : ChunkState) (b : Nat) (rest : List Nat) :
    cs.writeBytes (b :: rest) =
      ChunkState.writeBytes
        { cs with
          blockWords := writeBlockByte cs.blockWords cs.blockLen b
          blockLen := cs.blockLen + 1 } rest := rfl

theorem ChunkState.writeBytes_blockLen (bytes : List Nat) :
    ∀ cs : ChunkState, (cs.writeBytes bytes).blockLen = cs.blockLen + bytes.length := by
  induction bytes with
  | nil => intro cs; simp [ChunkState.writeBytes]
  | cons b rest ih =>
    intro cs
    rw [ChunkState.writeBytes_cons, ih]
    simp
    omega

theorem ChunkState.writeBytes_fields (bytes : List Nat) :
    ∀ cs : ChunkState,
      (cs.writeBytes bytes).chainingValue = cs.chainingValue ∧
      (cs.writeBytes bytes).chunkCounter = cs.chunkCounter ∧
      (cs.writeBytes bytes).blocksCompressed = cs.blocksCompressed ∧
      (cs.writeBytes bytes).flags = cs.flags := by
  induction bytes with
  | nil => intro cs; simp [ChunkState.writeBytes]
  | cons b rest ih =>
    intro cs
    rw [ChunkState.writeBytes_cons]
    exact ih _

/-- Feeding bytes that fit in the open block is a plain buffer write. -/
theorem foldl_feedByte_eq_writeBytes (bytes : List Nat) :
    ∀ cs : ChunkState, cs.blockLen + bytes.length ≤ BLOCK_LEN →
      bytes.foldl ChunkState.feedByte cs = cs.writeBytes bytes := by
  induction bytes with
  | nil => intro cs _; rfl
  | cons b rest ih =>
    intro cs hle
    have hbl : cs.blockLen ≠ BLOCK_LEN := by
      simp only [List.length_cons] at hle
      unfold BLOCK_LEN at hle ⊢
      omega
    have hstep : ChunkState.feedByte cs b =
        { cs with
          blockWords := writeBlockByte cs.blockWords cs.blockLen b
          blockLen := cs.blockLen + 1 } := by
      unfold ChunkState.feedByte
      simp [hbl]
    rw [List.foldl_cons, hstep, ChunkState.writeBytes_cons]
    apply ih
    simp only [List.length_cons] at hle
    simp only
    omega

/-- The first byte of a run (which may first compress the full buffer),
followed by an in-block run. -/
theorem foldl_feedByte_run (bytes : List Nat) (cs : ChunkState) (hne : bytes ≠ [])
    (hle : bytes.length ≤ BLOCK_LEN -
      (if cs.blockLen = BLOCK_LEN then cs.compressFullBlock else cs).blockLen) :
    bytes.foldl ChunkState.feedByte cs =
      (if cs.blockLen = BLOCK_LEN then cs.compressFullBlock else cs).writeBytes bytes := by
  cases bytes with
  | nil => exact absurd rfl hne
  | cons b rest =>
    set cs1 := if cs.blockLen = BLOCK_LEN then cs.compressFullBlock else cs with hcs1
    have hstep : ChunkState.feedByte cs b =
        { cs1 with
          blockWords := writeBlockByte cs1.blockWords cs1.blockLen b
          blockLen := cs1.blockLen + 1 } := rfl
    rw [List.foldl_cons, hstep, ChunkState.writeBytes_cons]
    apply foldl_feedByte_eq_writeBytes
    simp only [List.length_cons] at hle
    simp only
    omega

theorem ChunkState.compressFullBlock_blockLen (cs : ChunkState) :
    cs.compressFullBlock.blockLen = 0 := rfl

/-- `ChunkState.update` is the fold of `feedByte` (for well-formed buffer
lengths). -/
theorem ChunkState.update_eq_foldl :
    ∀ (n : Nat) (input : List Nat), input.length ≤ n →
      ∀ cs : ChunkState, cs.blockLen ≤ BLOCK_LEN →
        cs.update input = input.foldl ChunkState.feedByte cs := by
  intro n
  induction n with
  | zero =>
    intro input hlen cs _
    have : input = [] := List.eq_nil_of_length_eq_zero (by omega)
    subst this
    rw [ChunkState.update]
    simp
  | succ n ih =>
    intro input hlen cs hbl
    cases input with
    | nil => rw [ChunkState.update]; simp
    | cons b rest =>
      rw [ChunkState.update]
      rw [if_neg (by simp)]
      set cs1 := if cs.blockLen = BLOCK_LEN then cs.compressFullBlock else cs with hcs1
      have hbl1 : cs1.blockLen < BLOCK_LEN := by
        rw [hcs1]
        split
        · rw [ChunkState.compressFullBlock_blockLen]; unfold BLOCK_LEN; omega
        · unfold BLOCK_LEN at *; omega
      set tk := min (BLOCK_LEN - cs1.blockLen) (b :: rest).length with htk
      have htkA : tk ≤ BLOCK_LEN - cs1.blockLen := htk ▸ Nat.min_le_left _ _
      have htkB : tk ≤ (b :: rest).length := htk ▸ Nat.min_le_right _ _
      have htkpos : tk ≠ 0 := by
        rw [htk]
        simp only [List.length_cons, Nat.min_eq_zero_iff]
        omega
      rw [dif_neg htkpos]
      have hlentk : ((b :: rest).take tk).length = tk := by
        simp only [List.length_take]
        omega
      have h1 := ih ((b :: rest).drop tk)
        (by simp only [List.length_drop, List.length_cons] at *; omega)
        (cs1.writeBytes ((b :: rest).take tk))
        (by rw [ChunkState.writeBytes_blockLen, hlentk]; omega)
      rw [h1]
      have h2 : cs1.writeBytes ((b :: rest).take tk) =
          ((b :: rest).take tk).foldl ChunkState.feedByte cs := by
        rw [foldl_feedByte_run ((b :: rest).take tk) cs
          (by
            intro hemp
            rw [hemp] at hlentk
            simp only [List.length_nil] at hlentk
            omega)
          (by rw [← hcs1, hlentk]; omega)]
      rw [h2, ← List.foldl_append, List.take_append_drop]

theorem ChunkState.feedByte_len (cs : ChunkState) (b : Nat) :
    (cs.feedByte b).len = cs.len + 1 := by
  unfold ChunkState.feedByte ChunkState.len
  split
  · rename_i hbl
    simp [ChunkState.compressFullBlock]
    unfold BLOCK_LEN at *
    omega
  · simp
    omega

theorem ChunkState.feedByte_blockLen_le (cs : ChunkState) (b : Nat)
    (h : cs.blockLen ≤ BLOCK_LEN) : (cs.feedByte b).blockLen ≤ BLOCK_LEN := by
  unfold ChunkState.feedByte
  split
  · simp [ChunkState.compressFullBlock]; unfold BLOCK_LEN; omega
  · simp; unfold BLOCK_LEN at *; omega

theorem ChunkState.feedByte_counter (cs : ChunkState) (b : Nat) :
    (cs.feedByte b).chunkCounter = cs.chunkCounter := by
  unfold ChunkState.feedByte
  split <;> simp [ChunkState.compressFullBlock]

theorem ChunkState.feedByte_flags (cs : ChunkState) (b : Nat) :
    (cs.feedByte b).flags = cs.flags := by
  unfold ChunkState.feedByte
  split <;> simp [ChunkState.compressFullBlock]

theorem foldl_feedByte_len (bytes : List Nat) :
    ∀ cs : ChunkState, (bytes.foldl ChunkState.feedByte cs).len = cs.len + bytes.length := by
  induction bytes with
  | nil => intro cs; simp
  | cons b rest ih =>
    intro cs
    rw [List.foldl_cons, ih, ChunkState.feedByte_len]
    simp
    omega

theorem foldl_feedByte_blockLen_le (bytes : List Nat) :
    ∀ cs : ChunkState, cs.blockLen ≤ BLOCK_LEN →
      (bytes.foldl ChunkState.feedByte cs).blockLen ≤ BLOCK_LEN := by
  induction bytes with
  | nil => intro cs h; simpa using h
  | cons b rest ih =>
    intro cs h
    rw [List.foldl_cons]
    exact ih _ (ChunkState.feedByte_blockLen_le cs b h)

theorem Hasher.emitChunk_chunkState (h : Hasher) :
    h.emitChunk.chunkState = ChunkState.new h.keyWords (h.chunkState.chunkCounter + 1) h.flags :=
  rfl

theorem ChunkState.new_len (kw : List Nat) (c f : Nat) : (ChunkState.new kw c f).len = 0 := rfl

/-- Feeding bytes that fit in the open chunk never triggers a chunk emission. -/
theorem foldl_hfeed_inside (bytes : List Nat) :
    ∀ h : Hasher, h.chunkState.len + bytes.length ≤ CHUNK_LEN →
      bytes.foldl Hasher.feedByte h =
        { h with chunkState := bytes.foldl ChunkState.feedByte h.chunkState } := by
  induction bytes with
  | nil => intro h _; rfl
  | cons b rest ih =>
    intro h hle
    have hne : h.chunkState.len ≠ CHUNK_LEN := by
      simp only [List.length_cons] at hle
      unfold CHUNK_LEN at *
      omega
    have hstep : Hasher.feedByte h b = { h with chunkState := h.chunkState.feedByte b } := by
      unfold Hasher.feedByte
      simp [hne]
    rw [List.foldl_cons, hstep, ih]
    · rfl
    · simp only [ChunkState.feedByte_len]
      simp only [List.length_cons] at hle
      omega

/-- A maximal run inside one chunk: the possible chunk emission on the first
byte, then in-chunk feeding. -/
theorem foldl_hfeed_run (bytes : List Nat) (h : Hasher) (hne : bytes ≠ [])
    (hle : bytes.length ≤ CHUNK_LEN -
      (if h.chunkState.len = CHUNK_LEN then h.emitChunk else h).chunkState.len) :
    bytes.foldl Hasher.feedByte h =
      { (if h.chunkState.len = CHUNK_LEN then h.emitChunk else h) with
        chunkState :=
          bytes.foldl ChunkState.feedByte
            (if h.chunkState.len = CHUNK_LEN then h.emitChunk else h).chunkState } := by
  cases bytes with
  | nil => exact absurd rfl hne
  | cons b rest =>
    set h1 := if h.chunkState.len = CHUNK_LEN then h.emitChunk else h with hh1
    have hstep : Hasher.feedByte h b = { h1 with chunkState := h1.chunkState.feedByte b } := rfl
    rw [List.foldl_cons, hstep, List.foldl_cons]
    rw [foldl_hfeed_inside rest _
      (by
        simp only [ChunkState.feedByte_len]
        simp only [List.length_cons] at hle
        omega)]

/-- `Hasher.update` is the fold of `Hasher.feedByte` (for well-formed
states). -/
theorem Hasher.update_run_foldl :
    ∀ (n : Nat) (input : List Nat), input.length ≤ n →
      ∀ h : Hasher, h.chunkState.blockLen ≤ BLOCK_LEN → h.chunkState.len ≤ CHUNK_LEN →
        h.update input = input.foldl Hasher.feedByte h := by
  intro n
  induction n with
  | zero =>
    intro input hlen h _ _
    have : input = [] := List.eq_nil_of_length_eq_zero (by omega)
    subst this
    rw [Hasher.update]
    simp
  | succ n ih =>
    intro input hlen h hbl hcl
    cases input with
    | nil => rw [Hasher.update]; simp
    | cons b rest =>
      rw [Hasher.update]
      rw [if_neg (by simp)]
      set h1 := if h.chunkState.len = CHUNK_LEN then h.emitChunk else h with hh1
      have hbl1 : h1.chunkState.blockLen ≤ BLOCK_LEN := by
        rw [hh1]
        split
        · rw [Hasher.emitChunk_chunkState]; unfold ChunkState.new BLOCK_LEN; simp
        · exact hbl
      have hcl1 : h1.chunkState.len < CHUNK_LEN := by
        rw [hh1]
        split
        · rw [Hasher.emitChunk_chunkState, ChunkState.new_len]; unfold CHUNK_LEN; omega
        · unfold CHUNK_LEN at *; omega
      set tk := min (CHUNK_LEN - h1.chunkState.len) (b :: rest).length with htk
      have htkA : tk ≤ CHUNK_LEN - h1.chunkState.len := htk ▸ Nat.min_le_left _ _
      have htkB : tk ≤ (b :: rest).length := htk ▸ Nat.min_le_right _ _
      have htkpos : tk ≠ 0 := by
        rw [htk]
        simp only [List.length_cons, Nat.min_eq_zero_iff]
        omega
      rw [dif_neg htkpos]
      have hlentk : ((b :: rest).take tk).length = tk := by
        simp only [List.length_take]
        omega
      have hupd : h1.chunkState.update ((b :: rest).take tk) =
          ((b :: rest).take tk).foldl ChunkState.feedByte h1.chunkState :=
        ChunkState.update_eq_foldl ((b :: rest).take tk).length _ le_rfl _ hbl1
      have h2 : { h1 with chunkState := h1.chunkState.update ((b :: rest).take tk) } =
          ((b :: rest).take tk).foldl Hasher.feedByte h := by
        rw [hupd]
        rw [foldl_hfeed_run ((b :: rest).take tk) h
          (by
            intro hemp
            rw [hemp] at hlentk
            simp only [List.length_nil] at hlentk
            omega)
          (by rw [← hh1, hlentk]; omega)]
      rw [h2]
      have h3 := ih ((b :: rest).drop tk)
        (by simp only [List.length_drop, List.length_cons] at *; omega)
        (((b :: rest).take tk).foldl Hasher.feedByte h)
        (by
          rw [← h2]
          simp only
          rw [hupd]
          exact foldl_feedByte_blockLen_le _ _ hbl1)
        (by
          rw [← h2]
          simp only
          rw [hupd, foldl_feedByte_len, hlentk]
          omega)
      rw [h3, ← List.foldl_append, List.take_append_drop]

/-! ## The accumulator invariant -/

/-- The number of pops the merge loop of `Hasher.addChunkCv` performs when
pushing chunk number `tc` (the loop body runs once per trailing zero bit). -/
def mergePops (tc : Nat) : Nat :=
  if tc % 2 = 0 ∧ tc ≠ 0 then mergePops (tc / 2) + 1 else 0
termination_by tc
decreasing_by omega

theorem mergePops_le_popcount (tc : Nat) (h0 : tc ≠ 0) : mergePops tc ≤ popcount (tc - 1) := by
  induction tc using Nat.strong_induction_on with
  | _ tc ih =>
    rw [mergePops]
    split
    · rename_i hc
      rw [popcount_pred_even tc h0 hc.1]
      have h2 : tc / 2 ≠ 0 := by omega
      have := ih (tc / 2) (by omega) h2
      omega
    · omega

theorem addChunkCvLoop_length (kw : List Nat) (fl : Nat) :
    ∀ tc stack (cv : List Nat), tc ≠ 0 → stack.length = popcount (tc - 1) →
      (Hasher.addChunkCvLoop kw fl stack cv tc).length = popcount tc := by
  intro tc
  induction tc using Nat.strong_induction_on with
  | _ tc ih =>
    intro stack cv h0 hlen
    rw [Hasher.addChunkCvLoop]
    split
    · rename_i hc
      have hpos : 0 < popcount (tc - 1) := popcount_pos _ (by omega)
      have hpe := popcount_pred_even tc h0 hc.1
      rw [popcount_succ_even tc h0 hc.1]
      exact ih (tc / 2) (by omega) stack.tail _ (by omega)
        (by rw [List.length_tail]; omega)
    · simp only [List.length_cons]
      rename_i hc
      have hodd : tc % 2 ≠ 0 := by
        by_contra hmod
        exact hc ⟨hmod, h0⟩
      rw [popcount_odd tc hodd, hlen]

/-- The streaming invariant: well-formed buffer lengths, and the CV stack
depth is the popcount of the chunk counter (= the number of pushed chunks). -/
def HInv (h : Hasher) : Prop :=
  h.chunkState.blockLen ≤ BLOCK_LEN ∧ h.chunkState.len ≤ CHUNK_LEN ∧
    h.cvStack.length = popcount h.chunkState.chunkCounter

theorem HInv_new (kw : List Nat) (fl : Nat) : HInv (Hasher.new kw fl) := by
  refine ⟨by simp [Hasher.new, ChunkState.new, BLOCK_LEN], by simp [Hasher.new, ChunkState.new, ChunkState.len, CHUNK_LEN], ?_⟩
  simp [Hasher.new, ChunkState.new, popcount_zero]

theorem HInv_feedByte (h : Hasher) (b : Nat) (hi : HInv h) : HInv (h.feedByte b) := by
  obtain ⟨hbl, hcl, hstk⟩ := hi
  unfold Hasher.feedByte
  set h1 := if h.chunkState.len = CHUNK_LEN then h.emitChunk else h with hh1
  have hinv1 : h1.chunkState.blockLen ≤ BLOCK_LEN ∧ h1.chunkState.len < CHUNK_LEN ∧
      h1.cvStack.length = popcount h1.chunkState.chunkCounter := by
    rw [hh1]
    split
    · refine ⟨by rw [Hasher.emitChunk_chunkState]; unfold ChunkState.new BLOCK_LEN; simp,
        by rw [Hasher.emitChunk_chunkState, ChunkState.new_len]; unfold CHUNK_LEN; omega, ?_⟩
      rw [Hasher.emitChunk_chunkState]
      show (Hasher.addChunkCvLoop _ _ _ _ _).length = popcount (ChunkState.new _ _ _).chunkCounter
      rw [addChunkCvLoop_length h.keyWords h.flags (h.chunkState.chunkCounter + 1) h.cvStack _
        (by omega) (by simpa using hstk)]
      rfl
    · rename_i hne
      exact ⟨hbl, by unfold CHUNK_LEN at *; omega, hstk⟩
  refine ⟨?_, ?_, ?_⟩
  · exact ChunkState.feedByte_blockLen_le _ _ hinv1.1
  · show (h1.chunkState.feedByte b).len ≤ CHUNK_LEN
    rw [ChunkState.feedByte_len]
    omega
  · show h1.cvStack.length = popcount (h1.chunkState.feedByte b).chunkCounter
    rw [ChunkState.feedByte_counter]
    exact hinv1.2.2

theorem HInv_foldl (bytes : List Nat) :
    ∀ h : Hasher, HInv h → HInv (bytes.foldl Hasher.feedByte h) := by
  induction bytes with
  | nil => intro h hi; exact hi
  | cons b rest ih => intro h hi; exact ih _ (HInv_feedByte h b hi)

theorem Hasher.update_eq_foldl_of_inv (h : Hasher) (input : List Nat) (hi : HInv h) :
    h.update input = input.foldl Hasher.feedByte h :=
  Hasher.update_run_foldl input.length input le_rfl h hi.1 hi.2.1

theorem HInv_update (h : Hasher) (input : List Nat) (hi : HInv h) : HInv (h.update input) := by
  rw [Hasher.update_eq_foldl_of_inv h input hi]
  exact HInv_foldl input h hi

/-- Concatenating updates: the byte stream is consumed in order, so updating
with `A` then `B` is updating with `A ++ B`. -/
theorem Hasher.update_append (h : Hasher) (A B : List Nat) (hi : HInv h) :
    (h.update A).update B = h.update (A ++ B) := by
  rw [Hasher.update_eq_foldl_of_inv h A hi,
    Hasher.update_eq_foldl_of_inv _ B (HInv_foldl A h hi),
    Hasher.update_eq_foldl_of_inv h (A ++ B) hi, List.foldl_append]

/-! ## Claim theorems (first batch) -/

/-- C7: for every round r in 0..6, the 16 message-word indices consumed in
order by that round's eight G applications — row r of the source table
`MSG_ACCESS_ORDER` — equal the r-fold application of the permutation
σ = [2,6,3,10,7,0,4,13,1,11,12,5,9,14,15,8] to the identity order 0..15,
i.e. the precomputed rows R0..R6 listed in the spec. -/
theorem msg_access_order_eq_permuteIter :
    MSG_ACCESS_ORDER = (List.range 7).flatMap permuteIter := by decide

set_option maxRecDepth 10000 in
/-- C8: hashing the empty input in plain mode performs exactly one
compression — a single zero-length all-zero message block with counter 0,
block_len 0 and flags CHUNK_START | CHUNK_END | ROOT — and the 32-byte digest
equals af1349b9f5f9a1a6a0404dea36dcc9499bcb25c9adc112b7cc9a93cae41f3262. -/
theorem hashPureJS_empty_input :
    hashPureJS [] 32 =
      some ((bytesLE
        (compress16 IV (List.replicate 16 0) 0 0 (CHUNK_START ||| CHUNK_END ||| ROOT))).take 32) ∧
    hashPureJS [] 32 =
      some [0xaf, 0x13, 0x49, 0xb9, 0xf5, 0xf9, 0xa1, 0xa6, 0xa0, 0x40, 0x4d, 0xea, 0x36, 0xdc,
        0xc9, 0x49, 0x9b, 0xcb, 0x25, 0xc9, 0xad, 0xc1, 0x12, 0xb7, 0xcc, 0x9a, 0x93, 0xca,
        0xe4, 0x1f, 0x32, 0x62] := by
  constructor
  · unfold hashPureJS
    simp [emitDigest]
  · decide

/-- C6: `Hasher.newKeyed(key)` fails if and only if the key length differs
from 32 bytes; for a 32-byte key it returns a hasher whose key words are the
key bytes loaded as 8 little-endian 32-bit words, with mode flag KEYED_HASH
(and a fresh chunk 0 and empty CV stack). -/
theorem newKeyed_spec (key : List Nat) :
    ((∃ e, Hasher.newKeyed key = Except.error e) ↔ key.length ≠ 32) ∧
    (key.length = 32 →
      ∃ h, Hasher.newKeyed key = Except.ok h ∧
        h.keyWords = (List.range 8).map (fun i => wordLE key (4 * i)) ∧
        h.flags = KEYED_HASH ∧
        h.chunkState = ChunkState.new h.keyWords 0 KEYED_HASH ∧
        h.cvStack = []) := by
  unfold Hasher.newKeyed
  constructor
  · constructor
    · intro ⟨e, he⟩
      by_contra hlen
      rw [if_neg (by unfold KEY_LEN; omega)] at he
      exact Except.noConfusion he
    · intro hlen
      rw [if_pos (by unfold KEY_LEN; omega)]
      exact ⟨_, rfl⟩
  · intro hlen
    rw [if_neg (by unfold KEY_LEN; omega)]
    exact ⟨_, rfl, rfl, rfl, rfl, rfl⟩

/-- Witness for C6 at concrete keys: a 31-byte key is rejected and a 32-byte
key is accepted with the stated state. -/
theorem newKeyed_spec_witness :
    (∃ e, Hasher.newKeyed (List.replicate 31 5) = Except.error e) ∧
    (∃ h, Hasher.newKeyed (List.replicate 32 7) = Except.ok h ∧
      h.keyWords = (List.range 8).map (fun i => wordLE (List.replicate 32 7) (4 * i)) ∧
      h.flags = KEYED_HASH ∧
      h.chunkState = ChunkState.new h.keyWords 0 KEYED_HASH ∧
      h.cvStack = []) :=
  ⟨(newKeyed_spec (List.replicate 31 5)).1.mpr (by decide),
    (newKeyed_spec (List.replicate 32 7)).2 (by decide)⟩

/-- C4: feeding `A` then `B` to a fresh plain-mode hasher and finalizing to 32
bytes yields the same digest as feeding `X = A ++ B` in one update. -/
theorem update_split_eq (X A B : List Nat) (hX : X = A ++ B) (hA : A ≠ []) (hB : B ≠ []) :
    (((freshHasher.update A).update B).finalize 32).1 =
      ((freshHasher.update X).finalize 32).1 := by
  rw [hX, Hasher.update_append freshHasher A B (HInv_new IV 0)]

/-- Witness for C4 at a concrete split: X = [1,2] = [1] ++ [2]. -/
theorem update_split_eq_witness :
    [1, 2] = [1] ++ [2] ∧ ([1] : List Nat) ≠ [] ∧ ([2] : List Nat) ≠ [] ∧
    (((freshHasher.update [1]).update [2]).finalize 32).1 =
      ((freshHasher.update [1, 2]).finalize 32).1 :=
  ⟨rfl, by decide, by decide, update_split_eq [1, 2] [1] [2] rfl (by decide) (by decide)⟩

/-- C2: in any mode and for every sequence of update calls, once N ≥ 1 full
chunks have been pushed into the accumulator (the chunk counter of the open
chunk equals N), the CV stack holds exactly popcount(N) entries; and the
merge loop run on a push of chunk number tc performs `mergePops tc` pops
while the stack it starts from holds `popcount (tc - 1)` entries (by the
first part), so it never pops from an empty stack. -/
theorem cvStack_depth_popcount (kw : List Nat) (fl : Nat) (updates : List (List Nat)) :
    ((updates.foldl (fun h u => h.update u) (Hasher.new kw fl)).cvStack.length =
      popcount (updates.foldl (fun h u => h.update u)
        (Hasher.new kw fl)).chunkState.chunkCounter) ∧
    (∀ tc : Nat, tc ≠ 0 → mergePops tc ≤ popcount (tc - 1)) := by
  constructor
  · have : ∀ (us : List (List Nat)) (h : Hasher), HInv h →
        HInv (us.foldl (fun h u => h.update u) h) := by
      intro us
      induction us with
      | nil => intro h hi; exact hi
      | cons u rest ih => intro h hi; exact ih _ (HInv_update h u hi)
    exact (this updates (Hasher.new kw fl) (HInv_new kw fl)).2.2
  · intro tc h0
    exact mergePops_le_popcount tc h0

/-- Witness for C2 at a concrete run: three updates totalling 2500 bytes push
2 chunks, and popcount 2 = 1 entry is on the stack; the pop-count bound is
instantiated at tc = 4. -/
theorem cvStack_depth_popcount_witness :
    (([List.replicate 1000 1, List.replicate 1000 2, List.replicate 500 3].foldl
        (fun h u => h.update u) (Hasher.new IV 0)).cvStack.length =
      popcount ([List.replicate 1000 1, List.replicate 1000 2, List.replicate 500 3].foldl
        (fun h u => h.update u) (Hasher.new IV 0)).chunkState.chunkCounter) ∧
    (4 : Nat) ≠ 0 ∧ mergePops 4 ≤ popcount (4 - 1) :=
  ⟨(cvStack_depth_popcount IV 0 _).1, by decide,
    (cvStack_depth_popcount IV 0 [List.replicate 1000 1, List.replicate 1000 2,
      List.replicate 500 3]).2 4 (by decide)⟩

/-! ## The XOF output stream -/

/-- The `k`-th 64-byte output block a reader with seed `r0` produces:
the seed compressed with counter `r0.counter + k`. -/
def xofBlockAt (r0 : XofReader) (k : Nat) : List Nat :=
  compress16 r0.inputCv r0.blockWords (r0.counter + k) r0.blockLen r0.flags

/-- Byte `o` of the output stream of a reader with seed `r0`. -/
def xofStreamByte (r0 : XofReader) (o : Nat) : Nat :=
  (bytesLE (xofBlockAt r0 (o / 64))).getD (o % 64) 0

/-- `r` is the reader seeded like `r0` after `p` stream bytes were consumed:
either the buffered block is exhausted at a block boundary, or the buffer
holds block `p / 64` with `p % 64` bytes consumed. -/
def Reads (r0 : XofReader) (p : Nat) (r : XofReader) : Prop :=
  r.inputCv = r0.inputCv ∧ r.blockWords = r0.blockWords ∧ r.blockLen = r0.blockLen ∧
  r.flags = r0.flags ∧
  ((r.outputBlockOffset = 64 ∧ r.counter = r0.counter + p / 64 ∧ p % 64 = 0) ∨
   (r.outputBlockOffset < 64 ∧ r.counter = r0.counter + p / 64 + 1 ∧
     r.outputBlockOffset = p % 64 ∧ r.outputBlock = xofBlockAt r0 (p / 64)))

theorem Reads_self (r0 : XofReader) (h : r0.outputBlockOffset = 64) : Reads r0 0 r0 := by
  refine ⟨rfl, rfl, rfl, rfl, Or.inl ⟨h, by simp, by simp⟩⟩

theorem refill_reads (r0 : XofReader) (p : Nat) (r : XofReader) (h : Reads r0 p r) :
    r.refill.inputCv = r0.inputCv ∧ r.refill.blockWords = r0.blockWords ∧
    r.refill.blockLen = r0.blockLen ∧ r.refill.flags = r0.flags ∧
    r.refill.outputBlockOffset = p % 64 ∧
    r.refill.counter = r0.counter + p / 64 + 1 ∧
    r.refill.outputBlock = xofBlockAt r0 (p / 64) := by
  obtain ⟨h1, h2, h3, h4, hcase⟩ := h
  rcases hcase with ⟨ho, hc, hm⟩ | ⟨ho, hc, hm, hb⟩
  · unfold XofReader.refill
    rw [if_pos (by omega)]
    refine ⟨h1, h2, h3, h4, by simpa using hm.symm, by simpa using hc, ?_⟩
    show compress16 r.inputCv r.blockWords r.counter r.blockLen r.flags = _
    rw [h1, h2, h3, h4, hc]
    rfl
  · unfold XofReader.refill
    rw [if_neg (by omega)]
    exact ⟨h1, h2, h3, h4, hm, hc, hb⟩

theorem bytesLE_length (ws : List Nat) : (bytesLE ws).length = 4 * ws.length := by
  induction ws with
  | nil => rfl
  | cons w rest ih =>
    simp only [bytesLE] at *
    simp [ih]
    omega

theorem drop_take_eq_map_getD (l : List Nat) (a t : Nat) (h : a + t ≤ l.length) :
    (l.drop a).take t = (List.range t).map (fun i => l.getD (a + i) 0) := by
  apply List.ext_getElem
  · simp only [List.length_take, List.length_drop, List.length_map, List.length_range]
    omega
  · intro i h1 h2
    have hit : i < t := by simpa using h2
    simp only [List.getElem_take, List.getElem_drop, List.getElem_map, List.getElem_range]
    rw [List.getD_eq_getElem l 0 (by omega)]

/-- The reading loop follows the stream: from position `p`, `read n` returns
stream bytes `p, …, p + n - 1` and leaves the reader at position `p + n`. -/
theorem read_spec (r0 : XofReader) :
    ∀ n, ∀ (r : XofReader) (p : Nat), Reads r0 p r →
      (r.read n).1 = (List.range n).map (fun i => xofStreamByte r0 (p + i)) ∧
      Reads r0 (p + n) (r.read n).2 := by
  intro n
  induction n using Nat.strong_induction_on with
  | _ n ih =>
    intro r p hr
    match n with
    | 0 => exact ⟨by rw [XofReader.read]; rfl, by rw [XofReader.read]; simpa using hr⟩
    | m + 1 =>
      rw [XofReader.read]
      dsimp only
      obtain ⟨e1, e2, e3, e4, e5, e6, e7⟩ := refill_reads r0 p r hr
      set r1 := r.refill with hr1
      set toCopy := min (64 - r1.outputBlockOffset) (m + 1) with htc
      have hofflt : r1.outputBlockOffset < 64 := XofReader.refill_offset_lt r
      have htcA : toCopy ≤ 64 - r1.outputBlockOffset := htc ▸ Nat.min_le_left _ _
      have htcB : toCopy ≤ m + 1 := htc ▸ Nat.min_le_right _ _
      have htcpos : 0 < toCopy := by rw [htc]; omega
      have hblen : (bytesLE r1.outputBlock).length = 64 := by
        rw [e7]
        unfold xofBlockAt
        rw [bytesLE_length, compress16_length]
      have hbytes : ((bytesLE r1.outputBlock).drop r1.outputBlockOffset).take toCopy =
          (List.range toCopy).map (fun i => xofStreamByte r0 (p + i)) := by
        rw [e5, drop_take_eq_map_getD _ _ _ (by rw [hblen]; omega)]
        apply List.map_congr_left
        intro i hi
        simp only [List.mem_range] at hi
        unfold xofStreamByte
        have hoff : r1.outputBlockOffset = p % 64 := e5
        have hdiv : (p + i) / 64 = p / 64 := by omega
        have hmod : (p + i) % 64 = p % 64 + i := by omega
        rw [hdiv, hmod, e7]
      have hnext : Reads r0 (p + toCopy)
          { r1 with outputBlockOffset := r1.outputBlockOffset + toCopy } := by
        refine ⟨e1, e2, e3, e4, ?_⟩
        by_cases hfull : r1.outputBlockOffset + toCopy = 64
        · refine Or.inl ⟨hfull, ?_, by omega⟩
          show r1.counter = r0.counter + (p + toCopy) / 64
          have hd : (p + toCopy) / 64 = p / 64 + 1 := by omega
          rw [e6, hd]
          omega
        · refine Or.inr ⟨?_, ?_, ?_, ?_⟩
          · show r1.outputBlockOffset + toCopy < 64
            omega
          · show r1.counter = r0.counter + (p + toCopy) / 64 + 1
            have hd : (p + toCopy) / 64 = p / 64 := by omega
            rw [e6, hd]
          · show r1.outputBlockOffset + toCopy = (p + toCopy) % 64
            omega
          · show r1.outputBlock = xofBlockAt r0 ((p + toCopy) / 64)
            have hd : (p + toCopy) / 64 = p / 64 := by omega
            rw [e7, hd]
      obtain ⟨ihb, ihr⟩ := ih (m + 1 - toCopy) (by omega) _ _ hnext
      refine ⟨?_, ?_⟩
      · rw [hbytes, ihb]
        have hsum : m + 1 = toCopy + (m + 1 - toCopy) := by omega
        conv_rhs => rw [hsum]
        rw [List.range_add, List.map_append, List.map_map]
        refine congrArg
          (fun t => List.map (fun i => xofStreamByte r0 (p + i)) (List.range toCopy) ++ t) ?_
        apply List.map_congr_left
        intro i _
        simp only [Function.comp_apply]
        congr 1
        omega
      · have hps : p + (m + 1) = p + toCopy + (m + 1 - toCopy) := by omega
        rw [hps]
        exact ihr

/-- Run a sequence of `read` calls on one reader, concatenating the results. -/
def readSeq (r : XofReader) : List Nat → List Nat
  | [] => []
  | n :: rest => (r.read n).1 ++ readSeq (r.read n).2 rest

theorem readSeq_spec (r0 : XofReader) :
    ∀ (lens : List Nat) (r : XofReader) (p : Nat), Reads r0 p r →
      readSeq r lens = (List.range lens.sum).map (fun i => xofStreamByte r0 (p + i)) := by
  intro lens
  induction lens with
  | nil => intro r p _; simp [readSeq]
  | cons n rest ih =>
    intro r p hr
    obtain ⟨hb, hr2⟩ := read_spec r0 n r p hr
    show (r.read n).1 ++ readSeq (r.read n).2 rest = _
    rw [hb, ih _ _ hr2]
    show _ = List.map _ (List.range (n + rest.sum))
    rw [List.range_add, List.map_append, List.map_map]
    refine congrArg (fun t => List.map (fun i => xofStreamByte r0 (p + i)) (List.range n) ++ t) ?_
    apply List.map_congr_left
    intro i _
    simp only [Function.comp_apply]
    congr 1
    omega

theorem popcount_eq_zero (n : Nat) (h : popcount n = 0) : n = 0 := by
  by_contra h0
  have := popcount_pos n h0
  omega

theorem finalizeMergeLoop_counter (kw : List Nat) (fl : Nat) :
    ∀ (stack : List (List Nat)) (cv : List Nat),
      (Hasher.finalizeMergeLoop kw fl stack cv).counter = 0 := by
  intro stack
  induction stack with
  | nil => intro cv; rfl
  | cons top rest ih =>
    intro cv
    cases rest with
    | nil => rfl
    | cons b r2 => exact ih _

theorem finalizeMergeLoop_flags (kw : List Nat) (fl : Nat) :
    ∀ (stack : List (List Nat)) (cv : List Nat),
      (Hasher.finalizeMergeLoop kw fl stack cv).flags = fl ||| PARENT := by
  intro stack
  induction stack with
  | nil => intro cv; rfl
  | cons top rest ih =>
    intro cv
    cases rest with
    | nil => rfl
    | cons b r2 => exact ih _

theorem ChunkState.zeroPad_counter (cs : ChunkState) : cs.zeroPad.chunkCounter = cs.chunkCounter :=
  rfl

/-- The root seed's counter is always 0 for a hasher whose stack depth is the
popcount of its chunk counter (that is, for all reachable hashers). -/
theorem finalizeOutput_counter (h : Hasher)
    (hstk : h.cvStack.length = popcount h.chunkState.chunkCounter) :
    ((h.finalizeOutput).1).counter = 0 := by
  unfold Hasher.finalizeOutput
  split
  rename_i out0 cs' hout
  split
  · rename_i hemp
    have hlen : h.cvStack.length = 0 := by
      rw [List.isEmpty_iff] at hemp
      simp [hemp]
    have hcc : h.chunkState.chunkCounter = 0 := popcount_eq_zero _ (by omega)
    have h1 : out0.counter = h.chunkState.chunkCounter := by
      have h2 : out0 = (h.chunkState.output).1 := by rw [hout]
      rw [h2]
      rfl
    show out0.counter = 0
    rw [h1, hcc]
  · exact finalizeMergeLoop_counter _ _ _ _

/-- C5: the XofReader returned by `finalizeXof` is a deterministic pure
stream: any sequence of read calls concatenates to the prefix (of length the
sum of the requested lengths) of one fixed stream determined by the root
seed, whose byte at offset o is byte (o mod 64) of the 64-byte extended
output of compressing the root seed with counter = o / 64; in particular a
split read equals the concatenation of its parts. -/
theorem xofReader_pure_stream (kw : List Nat) (fl : Nat) (X : List Nat)
    (lens : List Nat) (n1 n2 : Nat) :
    readSeq (((Hasher.new kw fl).update X).finalizeXof).1 lens =
      (List.range lens.sum).map (fun o =>
        (bytesLE (compress16 ((((Hasher.new kw fl).update X).finalizeXof).1).inputCv
          ((((Hasher.new kw fl).update X).finalizeXof).1).blockWords (o / 64)
          ((((Hasher.new kw fl).update X).finalizeXof).1).blockLen
          ((((Hasher.new kw fl).update X).finalizeXof).1).flags)).getD (o % 64) 0) ∧
    ((((Hasher.new kw fl).update X).finalizeXof).1.read (n1 + n2)).1 =
      ((((Hasher.new kw fl).update X).finalizeXof).1.read n1).1 ++
        (((((Hasher.new kw fl).update X).finalizeXof).1.read n1).2.read n2).1 := by
  set r0 := (((Hasher.new kw fl).update X).finalizeXof).1 with hr0
  have hfresh : r0.outputBlockOffset = 64 := by
    rw [hr0]
    show (XofReader.new _ _ _ _ _).outputBlockOffset = 64
    rfl
  have hc0 : r0.counter = 0 := by
    rw [hr0]
    show ((((Hasher.new kw fl).update X).finalizeOutput).1).counter = 0
    exact finalizeOutput_counter _ (HInv_update _ X (HInv_new kw fl)).2.2
  have hself := Reads_self r0 hfresh
  constructor
  · rw [readSeq_spec r0 lens r0 0 hself]
    apply List.map_congr_left
    intro o _
    unfold xofStreamByte xofBlockAt
    rw [hc0]
    simp
  · obtain ⟨hb1, hr1⟩ := read_spec r0 n1 r0 0 hself
    obtain ⟨hbS, _⟩ := read_spec r0 (n1 + n2) r0 0 hself
    obtain ⟨hb2, _⟩ := read_spec r0 n2 (r0.read n1).2 (0 + n1) hr1
    rw [hbS, hb1, hb2]
    rw [List.range_add, List.map_append, List.map_map]
    refine congrArg (fun t => List.map (fun i => xofStreamByte r0 (0 + i)) (List.range n1) ++ t) ?_
    apply List.map_congr_left
    intro i _
    simp only [Function.comp_apply]
    congr 1
    omega


/-! ## Concrete evaluation of a 1025-byte all-zero input

The hasher states reached after each 128-byte segment of zeros are forced
by `decide`; chaining the segments gives the state after an `update` with
1025 zero bytes (two chunks: one full chunk pushed to the CV stack, one
byte in the open chunk), used to exhibit the destructive finalization. -/

def seg128 : List Nat := List.replicate 128 0
def S1 : Hasher :=
{ chunkState := { chainingValue := [2577740178, 3583466483, 3747605348, 3075538856, 3153296696, 2043687335, 117226914,
                                    1175927084],
                  chunkCounter := 0,
                  blockWords := [0, 0, 0, 0, 0, 0, 0, 0, 0, 0, 0, 0, 0, 0, 0, 0],
                  blockLen := 64,
                  blocksCompressed := 1,
                  flags := 0 },
  keyWords := [1779033703, 3144134277, 1013904242, 2773480762, 1359893119, 2600822924, 528734635, 1541459225],
  cvStack := [],
  flags := 0 }

def S2 : Hasher :=
{ chunkState := { chainingValue := [3537332937, 3038639449, 2861082016, 2930887693, 736990972, 776573922, 2948168933,
                                    3409956413],
                  chunkCounter := 0,
                  blockWords := [0, 0, 0, 0, 0, 0, 0, 0, 0, 0, 0, 0, 0, 0, 0, 0],
                  blockLen := 64,
                  blocksCompressed := 3,
                  flags := 0 },
  keyWords := [1779033703, 3144134277, 1013904242, 2773480762, 1359893119, 2600822924, 528734635, 1541459225],
  cvStack := [],
  flags := 0 }

def S3 : Hasher :=
{ chunkState := { chainingValue := [544488147, 2888599811, 3797367265, 1734504106, 41755022, 2427178961, 2135553853,
                                    967001877],
                  chunkCounter := 0,
                  blockWords := [0, 0, 0, 0, 0, 0, 0, 0, 0, 0, 0, 0, 0, 0, 0, 0],
                  blockLen := 64,
                  blocksCompressed := 5,
                  flags := 0 },
  keyWords := [1779033703, 3144134277, 1013904242, 2773480762, 1359893119, 2600822924, 528734635, 1541459225],
  cvStack := [],
  flags := 0 }

def S4 : Hasher :=
{ chunkState := { chainingValue := [2399401045, 1770662590, 1506290632, 940829473, 3853886, 3763715055, 283035540,
                                    1805660826],
                  chunkCounter := 0,
                  blockWords := [0, 0, 0, 0, 0, 0, 0, 0, 0, 0, 0, 0, 0, 0, 0, 0],
                  blockLen := 64,
                  blocksCompressed := 7,
                  flags := 0 },
  keyWords := [1779033703, 3144134277, 1013904242, 2773480762, 1359893119, 2600822924, 528734635, 1541459225],
  cvStack := [],
  flags := 0 }

def S5 : Hasher :=
{ chunkState := { chainingValue := [3965899807, 1082265579, 3853346400, 505124107, 3537912932, 3948072347, 3450805738,
                                    1105626993],
                  chunkCounter := 0,
                  blockWords := [0, 0, 0, 0, 0, 0, 0, 0, 0, 0, 0, 0, 0, 0, 0, 0],
                  blockLen := 64,
                  blocksCompressed := 9,
                  flags := 0 },
  keyWords := [1779033703, 3144134277, 1013904242, 2773480762, 1359893119, 2600822924, 528734635, 1541459225],
  cvStack := [],
  flags := 0 }

def S6 : Hasher :=
{ chunkState := { chainingValue := [3839698812, 2129233508, 4253051864, 3490103309, 2683285097, 3886015938, 2381499358,
                                    3361644833],
                  chunkCounter := 0,
                  blockWords := [0, 0, 0, 0, 0, 0, 0, 0, 0, 0, 0, 0, 0, 0, 0, 0],
                  blockLen := 64,
                  blocksCompressed := 11,
                  flags := 0 },
  keyWords := [1779033703, 3144134277, 1013904242, 2773480762, 1359893119, 2600822924, 528734635, 1541459225],
  cvStack := [],
  flags := 0 }

def S7 : Hasher :=
{ chunkState := { chainingValue := [809488691, 923091733, 2890819427, 4212234102, 3727305406, 3859592282, 1545535416,
                                    1578600144],
                  chunkCounter := 0,
                  blockWords := [0, 0, 0, 0, 0, 0, 0, 0, 0, 0, 0, 0, 0, 0, 0, 0],
                  blockLen := 64,
                  blocksCompressed := 13,
                  flags := 0 },
  keyWords := [1779033703, 3144134277, 1013904242, 2773480762, 1359893119, 2600822924, 528734635, 1541459225],
  cvStack := [],
  flags := 0 }

def S8 : Hasher :=
{ chunkState := { chainingValue := [2965127245, 1086412266, 2528300102, 3895245930, 502558527, 221616945, 555670944,
                                    1436478760],
                  chunkCounter := 0,
                  blockWords := [0, 0, 0, 0, 0, 0, 0, 0, 0, 0, 0, 0, 0, 0, 0, 0],
                  blockLen := 64,
                  blocksCompressed := 15,
                  flags := 0 },
  keyWords := [1779033703, 3144134277, 1013904242, 2773480762, 1359893119, 2600822924, 528734635, 1541459225],
  cvStack := [],
  flags := 0 }

def S9 : Hasher :=
{ chunkState := { chainingValue := [1779033703, 3144134277, 1013904242, 2773480762, 1359893119, 2600822924, 528734635,
                                    1541459225],
                  chunkCounter := 1,
                  blockWords := [0, 0, 0, 0, 0, 0, 0, 0, 0, 0, 0, 0, 0, 0, 0, 0],
                  blockLen := 1,
                  blocksCompressed := 0,
                  flags := 0 },
  keyWords := [1779033703, 3144134277, 1013904242, 2773480762, 1359893119, 2600822924, 528734635, 1541459225],
  cvStack := [[3596251537, 593020977, 3257684525, 1384146943, 1418497064, 1823196687, 1276159327, 957169334]],
  flags := 0 }
set_option maxRecDepth 100000 in
theorem ladder1 : seg128.foldl Hasher.feedByte freshHasher = S1 := by decide

set_option maxRecDepth 100000 in
theorem ladder2 : seg128.foldl Hasher.feedByte S1 = S2 := by decide

set_option maxRecDepth 100000 in
theorem ladder3 : seg128.foldl Hasher.feedByte S2 = S3 := by decide

set_option maxRecDepth 100000 in
theorem ladder4 : seg128.foldl Hasher.feedByte S3 = S4 := by decide

set_option maxRecDepth 100000 in
theorem ladder5 : seg128.foldl Hasher.feedByte S4 = S5 := by decide

set_option maxRecDepth 100000 in
theorem ladder6 : seg128.foldl Hasher.feedByte S5 = S6 := by decide

set_option maxRecDepth 100000 in
theorem ladder7 : seg128.foldl Hasher.feedByte S6 = S7 := by decide

set_option maxRecDepth 100000 in
theorem ladder8 : seg128.foldl Hasher.feedByte S7 = S8 := by decide

/-- Pushing a chunk CV with an odd total chunk count is a plain push (the
merge loop does not run). -/
theorem addChunkCvLoop_one (kw : List Nat) (fl : Nat) (stack : List (List Nat)) (cv : List Nat) :
    Hasher.addChunkCvLoop kw fl stack cv 1 = cv :: stack := by
  unfold Hasher.addChunkCvLoop
  norm_num

set_option maxRecDepth 100000 in
theorem ladder9 : ([0] : List Nat).foldl Hasher.feedByte S8 = S9 := by
  show S8.feedByte 0 = S9
  unfold Hasher.feedByte
  rw [if_pos (show S8.chunkState.len = CHUNK_LEN by decide)]
  unfold Hasher.emitChunk
  simp only [show S8.chunkState.chunkCounter + 1 = 1 from rfl, addChunkCvLoop_one]
  decide

set_option maxRecDepth 100000 in
theorem replicate_1025_split :
    (List.replicate 1025 0 : List Nat) =
      seg128 ++ seg128 ++ seg128 ++ seg128 ++ seg128 ++ seg128 ++ seg128 ++ seg128 ++ [0] := by
  decide

/-- The hasher state reached by updating a fresh plain-mode hasher with
1025 zero bytes: chunk 0 complete and pushed (one CV-stack entry), one byte
buffered in chunk 1. -/
theorem update_1025_zeros : freshHasher.update (List.replicate 1025 0) = S9 := by
  rw [Hasher.update_eq_foldl_of_inv freshHasher _ (HInv_new IV 0), replicate_1025_split]
  simp only [List.foldl_append]
  rw [ladder1, ladder2, ladder3, ladder4, ladder5, ladder6, ladder7, ladder8, ladder9]

set_option maxRecDepth 100000 in
/-- **C1** (frame_effect) — REFUTED.  Finalization is NOT a pure read of the
hasher state: on the plain-mode hasher holding 1025 zero bytes (one CV-stack
entry, one byte in the open chunk), `finalize(32)` returns a hasher whose CV
stack was emptied by the `finalizeOutput` drain loop, and calling
`finalize(32)` a second time on that returned state yields a different
32-byte digest than the first call. -/
theorem finalize_destroys_state :
    ((freshHasher.update (List.replicate 1025 0)).finalize 32).2.cvStack.length ≠
        (freshHasher.update (List.replicate 1025 0)).cvStack.length ∧
    (((freshHasher.update (List.replicate 1025 0)).finalize 32).2.finalize 32).1 ≠
        ((freshHasher.update (List.replicate 1025 0)).finalize 32).1 := by
  rw [update_1025_zeros]
  exact ⟨by decide, by decide⟩

set_option maxRecDepth 100000 in
/-- **C3** — REFUTED at N = 65.  On the plain-mode hasher holding 1025 zero
bytes, `finalize(65)` does not return the first 65 bytes of
`finalizeXof().read(65)` from an identically prepared hasher: the `> 64`
branch of `finalize` calls `finalizeXof()` only after `finalizeOutput()`
already drained the CV stack of the same hasher, so its reader is seeded
from the destroyed state (the open chunk alone) instead of the root, and
the streams differ from the first byte on. -/
theorem finalize_ne_xof_read :
    (1 : Nat) ≤ 65 ∧ (65 : Nat) ≤ 2 ^ 16 ∧
    ((freshHasher.update (List.replicate 1025 0)).finalize 65).1 ≠
      ((((freshHasher.update (List.replicate 1025 0)).finalizeXof).1).read 65).1 := by
  rw [update_1025_zeros]
  refine ⟨by norm_num, by norm_num, ?_⟩
  intro heq
  have heq2 : ((((S9.finalizeOutput).2.finalizeXof).1).read 65).1 =
      (((S9.finalizeXof).1).read 65).1 := heq
  have hA := (read_spec ((S9.finalizeOutput).2.finalizeXof).1 65
      ((S9.finalizeOutput).2.finalizeXof).1 0 (Reads_self _ (by rfl))).1
  have hB := (read_spec (S9.finalizeXof).1 65 (S9.finalizeXof).1 0 (Reads_self _ (by rfl))).1
  rw [hA, hB] at heq2
  have hh := congrArg (fun l => l.headD 0) heq2
  have hhA : ((List.range 65).map
      (fun i => xofStreamByte ((S9.finalizeOutput).2.finalizeXof).1 (0 + i))).headD 0 =
      xofStreamByte ((S9.finalizeOutput).2.finalizeXof).1 0 := rfl
  have hhB : ((List.range 65).map
      (fun i => xofStreamByte (S9.finalizeXof).1 (0 + i))).headD 0 =
      xofStreamByte (S9.finalizeXof).1 0 := rfl
  simp only [hhA, hhB] at hh
  exact absurd hh (by decide)

/-! ## C9: the SIMD path agrees with the scalar path -/

/-- The CV of chunk `c` as the one-shot paths compute it: the chunk covers
bytes `1024c, …` with length `min 1024 (len − 1024c)`. -/
def chunkCvOf (input : List Nat) (c : Nat) : List Nat :=
  hashChunkWithWords input (1024 * c) (min 1024 (input.length - 1024 * c)) c 0

/-- One chunk-push step of the one-shot stack construction (`numChunks` fixes
which push is the last one, whose root merge is deferred). -/
def oneShotStep (input : List Nat) (numChunks : Nat) (st : List (List Nat)) (c : Nat) :
    List (List Nat) :=
  mergePushSkip st (chunkCvOf input c) (c + 1) (decide (c = numChunks - 1))

/-- A batched SIMD lane computes the scalar CV of its (full) chunk. -/
theorem batchLaneCv_eq (input : List Nat) (cIdx : Nat) :
    batchLaneCv input cIdx = hashChunkWithWords input (1024 * cIdx) 1024 cIdx 0 := by
  unfold batchLaneCv hashChunkWithWords
  norm_num

/-- Folding a function that fixes the accumulator on every list element is
the identity. -/
theorem foldl_id_of_fixed (l : List Nat) (F : List Nat → Nat → List Nat) (a : List Nat)
    (H : ∀ x ∈ l, ∀ acc, F acc x = acc) : l.foldl F a = a := by
  induction l generalizing a with
  | nil => rfl
  | cons x xs ih =>
    rw [List.foldl_cons, H x (by simp)]
    exact ih _ fun y hy acc => H y (by simp [hy]) acc

/-- A fold over `range 16` that is inert from index `tb` on restricts to a
fold over `range tb`. -/
theorem foldl_range_restrict (tb : Nat) (F G : List Nat → Nat → List Nat) (a : List Nat)
    (htb : tb ≤ 16)
    (H1 : ∀ x, x < tb → ∀ acc, F acc x = G acc x)
    (H2 : ∀ x, tb ≤ x → x < 16 → ∀ acc, F acc x = acc) :
    (List.range 16).foldl F a = (List.range tb).foldl G a := by
  have hsplit : (16 : Nat) = tb + (16 - tb) := by omega
  rw [hsplit, List.range_add, List.foldl_append]
  have h2 : ((List.range (16 - tb)).map (fun x => tb + x)).foldl F ((List.range tb).foldl F a) =
      (List.range tb).foldl F a := by
    apply foldl_id_of_fixed
    intro x hx acc
    simp only [List.mem_map, List.mem_range] at hx
    obtain ⟨y, hy, rfl⟩ := hx
    exact H2 (tb + y) (by omega) (by omega) acc
  rw [h2]
  exact List.foldl_ext F G a fun acc b hb => H1 b (by simpa using hb) acc

/-- A standard (block-by-block) SIMD lane computes the scalar CV of its
chunk, for every chunk that holds at least one byte. -/
theorem standardLaneCv_eq (input : List Nat) (cIdx : Nat) (h : 1024 * cIdx < input.length) :
    standardLaneCv input cIdx = chunkCvOf input cIdx := by
  unfold standardLaneCv chunkCvOf hashChunkWithWords
  dsimp only
  set L := min 1024 (input.length - 1024 * cIdx) with hL
  have hL1 : 1 ≤ L := by omega
  have hL2 : L ≤ 1024 := by omega
  have hite : (if L % 64 = 0 then (0 : Nat) else 1) = (L + 63) / 64 - L / 64 := by
    by_cases hmod : L % 64 = 0
    · rw [if_pos hmod]; omega
    · rw [if_neg hmod]; omega
  rw [hite, show L / 64 + ((L + 63) / 64 - L / 64) = (L + 63) / 64 by omega,
    show max ((L + 63) / 64) 1 = (L + 63) / 64 by omega]
  apply foldl_range_restrict ((L + 63) / 64) _ _ _ (by omega)
  · intro x hx acc
    have hx64 : 64 * x < L := by omega
    rw [if_neg (show ¬ L ≤ 64 * x by omega)]
    rw [if_neg (show ¬ min 64 (L - 64 * x) = 0 by omega)]
    have hbl : min 64 (L - 64 * x) =
        if x = (L + 63) / 64 - 1 ∧ L % 64 ≠ 0 then L % 64 else 64 := by
      by_cases hlast : x = (L + 63) / 64 - 1
      · by_cases hmod : L % 64 = 0
        · rw [if_neg (by simp [hmod])]
          omega
        · rw [if_pos ⟨hlast, hmod⟩]
          omega
      · rw [if_neg (by tauto)]
        omega
    rw [hbl, Nat.zero_or]
    unfold BLOCK_LEN
    rfl
  · intro x hx1 hx2 acc
    rw [if_pos (show L ≤ 64 * x by omega)]
    simp

/-- The SIMD group loop is the chunk-by-chunk one-shot stack fold: groups of
four batched lanes or up to four standard lanes, merged in chunk order,
produce exactly the per-chunk merge sequence. -/
theorem simdGroups_eq (input : List Nat) (N F : Nat)
    (hF : 1024 * F ≤ input.length)
    (hpos : ∀ c, c < N → 1024 * c < input.length) :
    ∀ (k i : Nat) (stack : List (List Nat)), N - i ≤ k →
      simdGroups input N F i stack =
        (List.range' i (N - i)).foldl (oneShotStep input N) stack := by
  intro k
  induction k with
  | zero =>
    intro i stack hk
    rw [simdGroups, dif_neg (by omega)]
    rw [show N - i = 0 from by omega]
    rfl
  | succ m ih =>
    intro i stack hk
    by_cases hlt : i < N
    · rw [simdGroups, dif_pos hlt]
      dsimp only
      have hg1 : 1 ≤ min 4 (N - i) := by omega
      have hgle : min 4 (N - i) ≤ N - i := by omega
      conv_rhs => rw [show N - i = (N - i - min 4 (N - i)) + min 4 (N - i) from by omega,
        ← List.range'_append]
      rw [List.foldl_append, ih (i + min 4 (N - i)) _ (by omega),
        show i + 1 * min 4 (N - i) = i + min 4 (N - i) from by omega,
        show N - i - min 4 (N - i) = N - (i + min 4 (N - i)) from by omega]
      refine congrArg (fun st => List.foldl (oneShotStep input N) st
        (List.range' (i + min 4 (N - i)) (N - (i + min 4 (N - i))))) ?_
      rw [List.range'_eq_map_range, List.foldl_map]
      apply List.foldl_ext
      intro acc b hb
      simp only [List.mem_range] at hb
      unfold oneShotStep
      by_cases hbatch : min 4 (N - i) = 4 ∧ i + 4 ≤ F
      · rw [if_pos hbatch]
        have hgd : ((List.range 4).map (fun x => batchLaneCv input (i + x))).getD b
            (List.replicate 8 0) = batchLaneCv input (i + b) := by
          rw [List.getD_eq_getElem _ _ (by simp; omega)]
          simp
        rw [hgd, batchLaneCv_eq]
        have hfull : chunkCvOf input (i + b) =
            hashChunkWithWords input (1024 * (i + b)) 1024 (i + b) 0 := by
          unfold chunkCvOf
          rw [show min 1024 (input.length - 1024 * (i + b)) = 1024 from by omega]
        rw [hfull]
      · rw [if_neg hbatch]
        have hgd : ((List.range (min 4 (N - i))).map
            (fun x => standardLaneCv input (i + x))).getD b (List.replicate 8 0) =
            standardLaneCv input (i + b) := by
          rw [List.getD_eq_getElem _ _ (by simp; omega)]
          simp
        rw [hgd, standardLaneCv_eq input (i + b) (hpos (i + b) (by omega))]
    · rw [simdGroups, dif_neg hlt]
      rw [show N - i = 0 from by omega]
      rfl

/-- The merge-and-push loop always pushes: its result is never empty. -/
theorem mergePushSkip_ne_nil :
    ∀ (stack : List (List Nat)) (cv : List Nat) (tc : Nat) (b : Bool),
      mergePushSkip stack cv tc b ≠ [] := by
  intro stack
  induction stack with
  | nil =>
    intro cv tc b
    rw [mergePushSkip]
    simp
  | cons top rest ih =>
    intro cv tc b
    rw [mergePushSkip]
    split
    · simp
    · split
      · simp
      · exact ih _ _ _

/-- On a non-empty stack the SIMD finalization is the scalar finalization
(they differ only in the unreachable empty-stack fallback). -/
theorem simdFinal_eq_pureJSFinal (input : List Nat) (outputLen : Nat) :
    ∀ (n : Nat) (stack : List (List Nat)), stack.length ≤ n → stack ≠ [] →
      simdFinal input stack outputLen = pureJSFinal stack outputLen := by
  intro n
  induction n with
  | zero =>
    intro stack h hne
    cases stack with
    | nil => exact absurd rfl hne
    | cons a l => simp at h
  | succ m ih =>
    intro stack h hne
    match stack with
    | [single] =>
      rw [simdFinal, pureJSFinal]
      · rfl
      · intro r l rest hx
        injection hx with h1 h2
        exact List.noConfusion h2
    | right :: left :: rest =>
      rw [simdFinal, pureJSFinal]
      by_cases hr : rest.isEmpty
      · rw [if_pos hr, if_pos hr]
      · rw [if_neg hr, if_neg hr]
        refine ih _ ?_ (by simp)
        simp only [List.length_cons] at h ⊢
        omega

/-- A non-trivial one-shot chunk fold never leaves the stack empty. -/
theorem foldl_oneShotStep_ne_nil (input : List Nat) (N n : Nat) (hn : 1 ≤ n)
    (init : List (List Nat)) :
    (List.range' 0 n).foldl (oneShotStep input N) init ≠ [] := by
  rw [show n = 1 + (n - 1) from by omega, ← List.range'_append, List.foldl_append]
  rw [show (0 : Nat) + 1 * (n - 1) = n - 1 from by omega, List.range'_one]
  rw [List.foldl_cons, List.foldl_nil]
  unfold oneShotStep
  exact mergePushSkip_ne_nil _ _ _ _

/-- The scalar multi-chunk path builds its stack by the per-chunk one-shot
fold and finalizes it. -/
theorem hashPureJS_stack (input : List Nat) (outputLen : Nat) (h1 : 1024 < input.length) :
    hashPureJS input outputLen =
      pureJSFinal ((List.range' 0 ((input.length + 1023) / 1024)).foldl
        (oneShotStep input ((input.length + 1023) / 1024)) []) outputLen := by
  unfold hashPureJS
  dsimp only
  rw [if_neg (by omega), if_neg (by omega)]
  by_cases hmod : input.length % 1024 = 0
  · rw [if_pos hmod]
    have hN : (input.length + 1023) / 1024 = input.length / 1024 := by omega
    rw [List.range_eq_range', hN]
    refine congrArg (fun st => pureJSFinal st outputLen) ?_
    apply List.foldl_ext
    intro acc c hc
    simp only [List.mem_range'_1] at hc
    unfold oneShotStep
    have hcv : chunkCvOf input c =
        hashChunkWithWords input (1024 * c) 1024 c 0 := by
      unfold chunkCvOf
      rw [show min 1024 (input.length - 1024 * c) = 1024 from by omega]
    rw [hcv]
    have hdec : decide (c = input.length / 1024 - 1 ∧ input.length % 1024 = 0) =
        decide (c = input.length / 1024 - 1) := by
      apply decide_eq_decide.mpr
      constructor
      · exact fun hx => hx.1
      · exact fun hx => ⟨hx, hmod⟩
    rw [hdec]
  · rw [if_neg hmod]
    have hN : (input.length + 1023) / 1024 = input.length / 1024 + 1 := by omega
    rw [hN, List.range'_concat, List.foldl_append]
    rw [show (0 : Nat) + 1 * (input.length / 1024) = input.length / 1024 from by omega,
      List.foldl_cons, List.foldl_nil]
    refine congrArg (fun st => pureJSFinal st outputLen) ?_
    have hlaststep : ∀ st : List (List Nat),
        oneShotStep input (input.length / 1024 + 1) st (input.length / 1024) =
          mergePushSkip st
            (hashChunkWithWords input (1024 * (input.length / 1024)) (input.length % 1024)
              (input.length / 1024) 0)
            (input.length / 1024 + 1) true := by
      intro st
      unfold oneShotStep
      have hcv : chunkCvOf input (input.length / 1024) =
          hashChunkWithWords input (1024 * (input.length / 1024)) (input.length % 1024)
            (input.length / 1024) 0 := by
        unfold chunkCvOf
        rw [show min 1024 (input.length - 1024 * (input.length / 1024)) =
          input.length % 1024 from by omega]
      rw [hcv, show decide (input.length / 1024 = input.length / 1024 + 1 - 1) = true from by simp]
    rw [hlaststep]
    refine congrArg (fun st => mergePushSkip st
      (hashChunkWithWords input (1024 * (input.length / 1024)) (input.length % 1024)
        (input.length / 1024) 0) (input.length / 1024 + 1) true) ?_
    rw [List.range_eq_range']
    apply List.foldl_ext
    intro acc c hc
    simp only [List.mem_range'_1] at hc
    unfold oneShotStep
    have hcv : chunkCvOf input c = hashChunkWithWords input (1024 * c) 1024 c 0 := by
      unfold chunkCvOf
      rw [show min 1024 (input.length - 1024 * c) = 1024 from by omega]
    rw [hcv]
    have hdec : decide (c = input.length / 1024 - 1 ∧ input.length % 1024 = 0) =
        decide (c = input.length / 1024 + 1 - 1) := by
      apply decide_eq_decide.mpr
      constructor
      · exact fun hx => absurd hx.2 hmod
      · intro hx
        omega
    rw [hdec]

/-- The SIMD path agrees with the scalar path on every input and output
length. -/
theorem hashSimd_eq_hashPureJS (input : List Nat) (outputLen : Nat) :
    hashSimd input outputLen = hashPureJS input outputLen := by
  unfold hashSimd
  dsimp only
  by_cases hlt : (input.length + 1023) / 1024 < 4
  · rw [if_pos hlt]
  · rw [if_neg hlt]
    have hlen : 1024 < input.length := by omega
    rw [simdGroups_eq input ((input.length + 1023) / 1024) (input.length / 1024)
      (by omega) (fun c hc => by omega) ((input.length + 1023) / 1024) 0 [] (by omega)]
    rw [Nat.sub_zero]
    rw [hashPureJS_stack input outputLen hlen]
    exact simdFinal_eq_pureJSFinal input outputLen _ _ le_rfl
      (foldl_oneShotStep_ne_nil input _ _ (by omega) [])

/-- **C9** (refinement_equivalence) — CONFIRMED.  The 4-way SIMD path
(`hashSimd`, including the batched 16-block variant and the modelled WASM
parent compression) produces exactly the scalar `hashPureJS` result on every
input and output length, so the dispatch between the two paths (`hash` with
or without SIMD available) has no effect on the digest. -/
theorem simd_scalar_agree (input : List Nat) (outputLen : Nat) (simd : Bool) :
    hashSimd input outputLen = hashPureJS input outputLen ∧
    hash simd input outputLen = hash false input outputLen := by
  refine ⟨hashSimd_eq_hashPureJS input outputLen, ?_⟩
  unfold hash
  by_cases hc : 4 * CHUNK_LEN ≤ input.length ∧ simd = true
  · rw [if_pos hc, if_neg (by simp)]
    exact hashSimd_eq_hashPureJS input outputLen
  · rw [if_neg hc, if_neg (by simp)]

/-! ## C10: the one-shot hash refines the Hasher pipeline

First, a characterization of the `ChunkState` reached by feeding a byte run,
up to the stale block-buffer words beyond the current block (which
`ChunkState.output` zero-pads away). -/

/-- `x ||| (y <<< k)` is plain addition when `x` fits in `k` bits. -/
theorem lor_shift_eq_add (x y k : Nat) (hx : x < 2 ^ k) :
    x ||| (y <<< k) = x + 2 ^ k * y := by
  apply Nat.eq_of_testBit_eq
  intro i
  rw [Nat.testBit_lor, Nat.testBit_shiftLeft, Nat.add_comm x (2 ^ k * y),
    Nat.testBit_mul_pow_two_add y hx i]
  by_cases hik : k ≤ i
  · rw [if_neg (by omega),
      Nat.testBit_lt_two_pow (lt_of_lt_of_le hx (Nat.pow_le_pow_right (by norm_num) hik))]
    simp [hik]
  · rw [if_pos (by omega)]
    simp [hik]

theorem byteAt_lt (bs : List Nat) (i : Nat) : byteAt bs i < 256 := Nat.mod_lt _ (by norm_num)

theorem byteAt_drop (bs : List Nat) (k i : Nat) : byteAt (bs.drop k) i = byteAt bs (k + i) := by
  unfold byteAt
  rw [List.getD_eq_getElem?_getD, List.getElem?_drop, ← List.getD_eq_getElem?_getD]

theorem byteAt_append_left (bs C : List Nat) (i : Nat) (h : i < bs.length) :
    byteAt (bs ++ C) i = byteAt bs i := by
  unfold byteAt
  rw [List.getD_append _ _ _ _ h]

theorem byteAt_oob (bs : List Nat) (i : Nat) (h : bs.length ≤ i) : byteAt bs i = 0 := by
  unfold byteAt
  rw [List.getD_eq_default _ _ h]

theorem byteAt_append_last (bs : List Nat) (b i : Nat) (h : i = bs.length) :
    byteAt (bs ++ [b]) i = b % 256 := by
  subst h
  unfold byteAt
  rw [List.getD_eq_getElem?_getD, List.getElem?_append_right le_rfl]
  simp

theorem wordLE_drop (bs : List Nat) (k off : Nat) :
    wordLE (bs.drop k) off = wordLE bs (k + off) := by
  unfold wordLE
  rw [byteAt_drop, byteAt_drop, byteAt_drop, byteAt_drop]
  simp only [Nat.add_assoc]

theorem blockWordsAt_drop (bs : List Nat) (k off : Nat) :
    blockWordsAt (bs.drop k) off = blockWordsAt bs (k + off) := by
  unfold blockWordsAt
  apply List.map_congr_left
  intro i _
  rw [wordLE_drop]
  congr 1
  omega

theorem blockWordsAt_append_left (bs C : List Nat) (off : Nat) (h : off + 64 ≤ bs.length) :
    blockWordsAt (bs ++ C) off = blockWordsAt bs off := by
  unfold blockWordsAt
  apply List.map_congr_left
  intro i hi
  simp only [List.mem_range] at hi
  unfold wordLE
  rw [byteAt_append_left _ _ _ (by omega), byteAt_append_left _ _ _ (by omega),
    byteAt_append_left _ _ _ (by omega), byteAt_append_left _ _ _ (by omega)]

/-- The chaining value after compressing the first `nb` full 64-byte blocks
of the byte run `B` of one chunk (counter `c`, mode `fl`), starting from the
key words. -/
def chunkBlocksCv (kw B : List Nat) (c fl nb : Nat) : List Nat :=
  (List.range nb).foldl
    (fun cv i => compressCv cv (blockWordsAt B (64 * i)) c BLOCK_LEN
      (fl ||| (if i = 0 then CHUNK_START else 0)))
    kw

theorem chunkBlocksCv_append (kw B C : List Nat) (c fl nb : Nat) (h : 64 * nb ≤ B.length) :
    chunkBlocksCv kw (B ++ C) c fl nb = chunkBlocksCv kw B c fl nb := by
  unfold chunkBlocksCv
  apply List.foldl_ext
  intro acc i hi
  simp only [List.mem_range] at hi
  rw [blockWordsAt_append_left _ _ _ (by omega)]

/-- Characterization of a `ChunkState` that has absorbed the non-empty byte
run `B` at counter `c` in mode `fl` (starting from `ChunkState.new kw c fl`):
scalar fields, chaining value, and the live prefix of the block buffer (the
words holding the current block; later words are stale). -/
def ChunkInv (kw B : List Nat) (c fl : Nat) (cs : ChunkState) : Prop :=
  cs.chunkCounter = c ∧ cs.flags = fl ∧
  cs.blocksCompressed = (B.length - 1) / 64 ∧
  cs.blockLen = B.length - 64 * ((B.length - 1) / 64) ∧
  cs.chainingValue = chunkBlocksCv kw B c fl ((B.length - 1) / 64) ∧
  cs.blockWords.length = 16 ∧
  cs.blockWords.take ((B.length - 64 * ((B.length - 1) / 64) + 3) / 4) =
    (blockWordsAt (B.drop (64 * ((B.length - 1) / 64))) 0).take
      ((B.length - 64 * ((B.length - 1) / 64) + 3) / 4)

/-- Writing one byte at the end of the current block extends the live prefix
of the block buffer by that byte. -/
theorem writeBlockByte_take (bw D : List Nat) (b : Nat)
    (hlen : bw.length = 16) (hD : D.length < 64)
    (hpre : bw.take ((D.length + 3) / 4) = (blockWordsAt D 0).take ((D.length + 3) / 4)) :
    (writeBlockByte bw D.length b).take ((D.length + 1 + 3) / 4) =
      (blockWordsAt (D ++ [b]) 0).take ((D.length + 1 + 3) / 4) := by
  have hbwlen : (blockWordsAt D 0).length = 16 := blockWordsAt_length D 0
  have hbwlen2 : (blockWordsAt (D ++ [b]) 0).length = 16 := blockWordsAt_length _ 0
  have hwlen : (writeBlockByte bw D.length b).length = 16 := by
    unfold writeBlockByte
    split <;> simp [hlen]
  have hq4 : D.length / 4 < 16 := by omega
  apply List.ext_getElem
  · simp only [List.length_take]
    omega
  · intro j hj1 hj2
    have hjlt : j < (D.length + 1 + 3) / 4 := by
      simp only [List.length_take] at hj1
      omega
    simp only [List.getElem_take]
    have hwordfix : ∀ i : Nat, (hi16 : i < 16) → (hib : 4 * i + 3 < D.length) →
        (blockWordsAt (D ++ [b]) 0)[i] = (blockWordsAt D 0)[i] := by
      intro i hi hib
      unfold blockWordsAt
      simp only [List.getElem_map, List.getElem_range]
      unfold wordLE
      rw [byteAt_append_left _ _ _ (by omega), byteAt_append_left _ _ _ (by omega),
        byteAt_append_left _ _ _ (by omega), byteAt_append_left _ _ _ (by omega)]
    have hpre' : ∀ i : Nat, (hi : i < (D.length + 3) / 4) →
        bw[i] = (blockWordsAt D 0)[i] := by
      intro i hi
      have := congrArg (fun l => l[i]?) hpre
      simp only [List.getElem?_take, hi, if_pos] at this
      rw [List.getElem?_eq_getElem (by omega), List.getElem?_eq_getElem (by omega)] at this
      exact Option.some_injective _ this
    by_cases hs : D.length % 4 = 0
    · -- aligned write: a fresh word is started
      have hwrite : writeBlockByte bw D.length b = bw.set (D.length / 4) (b % 256) := by
        unfold writeBlockByte
        rw [if_pos hs]
      simp only [hwrite]
      by_cases hjq : j = D.length / 4
      · subst hjq
        simp only [List.getElem_set_self]
        unfold blockWordsAt
        simp only [List.getElem_map, List.getElem_range]
        unfold wordLE
        simp only [Nat.zero_add]
        rw [byteAt_append_last _ _ _ (by omega), byteAt_oob _ _ (by simp; omega),
          byteAt_oob _ _ (by simp; omega), byteAt_oob _ _ (by simp; omega)]
        omega
      · have hjq' : j < D.length / 4 := by omega
        rw [List.getElem_set_ne (by omega)]
        rw [hpre' j (by omega), hwordfix j (by omega) (by omega)]
    · -- unaligned write: the byte is OR-ed into the current word
      have hwrite : writeBlockByte bw D.length b = bw.set (D.length / 4)
          (bw.get! (D.length / 4) ||| (b % 256) <<< (D.length % 4 * 8)) := by
        unfold writeBlockByte
        rw [if_neg hs]
      simp only [hwrite]
      by_cases hjq : j = D.length / 4
      · subst hjq
        simp only [List.getElem_set_self]
        have hget : bw.get! (D.length / 4) = (blockWordsAt D 0)[D.length / 4] := by
          rw [List.get!_eq_getElem!, getElem!_pos bw _ (by omega)]
          exact hpre' _ (by omega)
        rw [hget]
        unfold blockWordsAt
        simp only [List.getElem_map, List.getElem_range]
        unfold wordLE
        simp only [Nat.zero_add]
        have hb0 := byteAt_lt D (4 * (D.length / 4))
        have hb1 := byteAt_lt D (4 * (D.length / 4) + 1)
        have hb2 := byteAt_lt D (4 * (D.length / 4) + 2)
        have e0 : byteAt (D ++ [b]) (4 * (D.length / 4)) = byteAt D (4 * (D.length / 4)) ∨
            D.length % 4 = 0 := Or.inl (byteAt_append_left _ _ _ (by omega))
        -- case on the byte position within the word
        have hs3 : D.length % 4 = 1 ∨ D.length % 4 = 2 ∨ D.length % 4 = 3 := by omega
        rcases hs3 with h1 | h2 | h3
        · rw [show D.length % 4 * 8 = 8 from by rw [h1],
            lor_shift_eq_add _ _ 8 (by
              rw [byteAt_oob D (4 * (D.length / 4) + 1) (by omega),
                byteAt_oob D (4 * (D.length / 4) + 2) (by omega),
                byteAt_oob D (4 * (D.length / 4) + 3) (by omega)]
              omega)]
          rw [byteAt_append_left D [b] (4 * (D.length / 4)) (by omega),
            byteAt_append_last D b (4 * (D.length / 4) + 1) (by omega),
            byteAt_oob (D ++ [b]) (4 * (D.length / 4) + 2) (by simp; omega),
            byteAt_oob (D ++ [b]) (4 * (D.length / 4) + 3) (by simp; omega),
            byteAt_oob D (4 * (D.length / 4) + 1) (by omega),
            byteAt_oob D (4 * (D.length / 4) + 2) (by omega),
            byteAt_oob D (4 * (D.length / 4) + 3) (by omega)]
          norm_num
        · rw [show D.length % 4 * 8 = 16 from by rw [h2],
            lor_shift_eq_add _ _ 16 (by
              rw [byteAt_oob D (4 * (D.length / 4) + 2) (by omega),
                byteAt_oob D (4 * (D.length / 4) + 3) (by omega)]
              omega)]
          rw [byteAt_append_left D [b] (4 * (D.length / 4)) (by omega),
            byteAt_append_left D [b] (4 * (D.length / 4) + 1) (by omega),
            byteAt_append_last D b (4 * (D.length / 4) + 2) (by omega),
            byteAt_oob (D ++ [b]) (4 * (D.length / 4) + 3) (by simp; omega),
            byteAt_oob D (4 * (D.length / 4) + 2) (by omega),
            byteAt_oob D (4 * (D.length / 4) + 3) (by omega)]
          norm_num
        · rw [show D.length % 4 * 8 = 24 from by rw [h3],
            lor_shift_eq_add _ _ 24 (by
              rw [byteAt_oob D (4 * (D.length / 4) + 3) (by omega)]
              omega)]
          rw [byteAt_append_left D [b] (4 * (D.length / 4)) (by omega),
            byteAt_append_left D [b] (4 * (D.length / 4) + 1) (by omega),
            byteAt_append_left D [b] (4 * (D.length / 4) + 2) (by omega),
            byteAt_append_last D b (4 * (D.length / 4) + 3) (by omega),
            byteAt_oob D (4 * (D.length / 4) + 3) (by omega)]
          norm_num
      · have hjq' : j < D.length / 4 := by omega
        rw [List.getElem_set_ne (by omega)]
        rw [hpre' j (by omega), hwordfix j (by omega) (by omega)]

theorem writeBlockByte_length (bw : List Nat) (p b : Nat) :
    (writeBlockByte bw p b).length = bw.length := by
  unfold writeBlockByte
  split <;> simp

theorem wordLE_single (b : Nat) : wordLE [b] 0 = b % 256 := rfl

theorem blockWordsAt_single_take (b : Nat) : (blockWordsAt [b] 0).take 1 = [b % 256] := rfl

theorem writeBlockByte_zero_take (bw : List Nat) (b : Nat) (h : bw.length = 16) :
    (writeBlockByte bw 0 b).take 1 = [b % 256] := by
  unfold writeBlockByte
  norm_num
  match bw, h with
  | w :: rest, _ => rfl

theorem chunkBlocksCv_succ (kw B : List Nat) (c fl nb : Nat) :
    chunkBlocksCv kw B c fl (nb + 1) =
      compressCv (chunkBlocksCv kw B c fl nb) (blockWordsAt B (64 * nb)) c BLOCK_LEN
        (fl ||| if nb = 0 then CHUNK_START else 0) := by
  unfold chunkBlocksCv
  rw [List.range_succ, List.foldl_append]
  rfl

/-- Feeding the first byte of a chunk. -/
theorem ChunkInv_first (kw : List Nat) (c fl b : Nat) :
    ChunkInv kw [b] c fl ((ChunkState.new kw c fl).feedByte b) := by
  have hfeed : (ChunkState.new kw c fl).feedByte b =
      ⟨kw, c, (List.replicate 16 0).set 0 (b % 256), 1, 0, fl⟩ := by
    unfold ChunkState.feedByte ChunkState.new writeBlockByte BLOCK_LEN
    norm_num
  rw [hfeed]
  unfold ChunkInv
  refine ⟨rfl, rfl, by simp, by simp, ?_, by simp, ?_⟩
  · rw [show (([b].length - 1) / 64) = 0 from by simp]
    rfl
  · rw [show (([b].length - 64 * (([b].length - 1) / 64) + 3) / 4) = 1 from by simp,
      show (64 * (([b].length - 1) / 64)) = 0 from by simp, List.drop_zero,
      blockWordsAt_single_take]
    rfl

/-- One byte fed inside a chunk preserves the characterization. -/
theorem ChunkInv_feedByte (kw B : List Nat) (c fl b : Nat) (cs : ChunkState)
    (hB : B ≠ []) (hlen : B.length ≤ 1023) (hinv : ChunkInv kw B c fl cs) :
    ChunkInv kw (B ++ [b]) c fl (cs.feedByte b) := by
  obtain ⟨h1, h2, h3, h4, h5, h6, h7⟩ := hinv
  have hL1 : 1 ≤ B.length := List.length_pos.mpr hB
  have hr1 : 1 ≤ B.length - 64 * ((B.length - 1) / 64) := by omega
  have hr64 : B.length - 64 * ((B.length - 1) / 64) ≤ 64 := by omega
  have hDlen : (B.drop (64 * ((B.length - 1) / 64))).length =
      B.length - 64 * ((B.length - 1) / 64) := by
    rw [List.length_drop]
  by_cases hfull : B.length - 64 * ((B.length - 1) / 64) = 64
  · -- the buffered block is full: compress it, then start a new block
    have hfeed : cs.feedByte b =
        { cs with
            chainingValue := compressCv cs.chainingValue cs.blockWords cs.chunkCounter BLOCK_LEN
              (cs.flags ||| cs.startFlag),
            blocksCompressed := cs.blocksCompressed + 1,
            blockWords := writeBlockByte cs.blockWords 0 b,
            blockLen := 1 } := by
      unfold ChunkState.feedByte ChunkState.compressFullBlock
      rw [if_pos (by rw [h4]; unfold BLOCK_LEN; omega)]
    rw [hfeed]
    have hnb' : ((B ++ [b]).length - 1) / 64 = (B.length - 1) / 64 + 1 := by
      simp only [List.length_append, List.length_cons, List.length_nil]
      omega
    have h64nb : 64 * ((B.length - 1) / 64 + 1) = B.length := by omega
    unfold ChunkInv
    rw [hnb']
    simp only [List.length_append, List.length_cons, List.length_nil]
    refine ⟨h1, h2, ?_, ?_, ?_, ?_, ?_⟩
    · show cs.blocksCompressed + 1 = _
      omega
    · show (1 : Nat) = _
      omega
    · show compressCv cs.chainingValue cs.blockWords cs.chunkCounter BLOCK_LEN
        (cs.flags ||| cs.startFlag) = _
      rw [chunkBlocksCv_succ, chunkBlocksCv_append kw B [b] c fl _ (by omega),
        blockWordsAt_append_left B [b] _ (by omega)]
      have hbw : cs.blockWords = blockWordsAt B (64 * ((B.length - 1) / 64)) := by
        have h7' : cs.blockWords.take 16 = (blockWordsAt (B.drop (64 * ((B.length - 1) / 64))) 0).take 16 := by
          have : (B.length - 64 * ((B.length - 1) / 64) + 3) / 4 = 16 := by omega
          rw [this] at h7
          exact h7
        rw [List.take_of_length_le (by rw [h6]),
          List.take_of_length_le (by rw [blockWordsAt_length])] at h7'
        rw [h7', blockWordsAt_drop, Nat.add_zero]
      rw [← hbw, h5, h1, h2]
      unfold ChunkState.startFlag
      rw [h3]
    · show (writeBlockByte cs.blockWords 0 b).length = 16
      rw [writeBlockByte_length, h6]
    · show (writeBlockByte cs.blockWords 0 b).take ((B.length + 1 - 64 * ((B.length - 1) / 64 + 1) + 3) / 4) =
        (blockWordsAt ((B ++ [b]).drop (64 * ((B.length - 1) / 64 + 1))) 0).take
          ((B.length + 1 - 64 * ((B.length - 1) / 64 + 1) + 3) / 4)
      rw [show (B.length + 1 - 64 * ((B.length - 1) / 64 + 1) + 3) / 4 = 1 from by omega]
      rw [show 64 * ((B.length - 1) / 64 + 1) = B.length from h64nb]
      rw [show ((B ++ [b]).drop B.length) = [b] from by
        rw [show B.length = B.length + 0 from rfl]
        simp [List.drop_append]]
      rw [blockWordsAt_single_take, writeBlockByte_zero_take _ _ h6]
  · -- room in the buffered block: plain byte write
    have hfeed : cs.feedByte b =
        { cs with blockWords := writeBlockByte cs.blockWords cs.blockLen b,
                  blockLen := cs.blockLen + 1 } := by
      unfold ChunkState.feedByte
      rw [if_neg (by rw [h4]; unfold BLOCK_LEN; omega)]
    rw [hfeed]
    have hnb' : ((B ++ [b]).length - 1) / 64 = (B.length - 1) / 64 := by
      simp only [List.length_append, List.length_cons, List.length_nil]
      omega
    unfold ChunkInv
    rw [hnb']
    simp only [List.length_append, List.length_cons, List.length_nil]
    have hW := writeBlockByte_take cs.blockWords (B.drop (64 * ((B.length - 1) / 64))) b h6
      (by rw [hDlen]; omega)
      (by rw [hDlen]; exact h7)
    rw [hDlen] at hW
    refine ⟨h1, h2, ?_, ?_, ?_, ?_, ?_⟩
    · show cs.blocksCompressed = _
      rw [h3]
    · show cs.blockLen + 1 = _
      omega
    · show cs.chainingValue = _
      rw [h5, chunkBlocksCv_append kw B [b] c fl _ (by omega)]
    · show (writeBlockByte cs.blockWords cs.blockLen b).length = 16
      rw [writeBlockByte_length, h6]
    · show (writeBlockByte cs.blockWords cs.blockLen b).take ((B.length + 1 - 64 * ((B.length - 1) / 64) + 3) / 4) =
        (blockWordsAt ((B ++ [b]).drop (64 * ((B.length - 1) / 64))) 0).take
          ((B.length + 1 - 64 * ((B.length - 1) / 64) + 3) / 4)
      rw [List.drop_append_of_le_length (by omega)]
      rw [show (B.length + 1 - 64 * ((B.length - 1) / 64) + 3) / 4 =
        (B.length - 64 * ((B.length - 1) / 64) + 1 + 3) / 4 from by omega]
      rw [h4]
      exact hW

/-- Feeding a byte run inside one chunk preserves the characterization. -/
theorem ChunkInv_foldl (kw : List Nat) (c fl : Nat) :
    ∀ (D B : List Nat) (cs : ChunkState), ChunkInv kw B c fl cs → B ≠ [] →
      B.length + D.length ≤ 1024 →
      ChunkInv kw (B ++ D) c fl (D.foldl ChunkState.feedByte cs) := by
  intro D
  induction D with
  | nil =>
    intro B cs hinv hB _
    simpa using hinv
  | cons d rest ih =>
    intro B cs hinv hB hlen
    rw [show B ++ d :: rest = (B ++ [d]) ++ rest from by simp, List.foldl_cons]
    refine ih (B ++ [d]) _
      (ChunkInv_feedByte kw B c fl d cs hB (by simp at hlen; omega) hinv) (by simp) ?_
    simp only [List.length_append, List.length_cons, List.length_nil] at hlen ⊢
    omega

/-- Beyond the bytes of `D`, the loaded block words are zero. -/
theorem blockWordsAt_drop_zeros (D : List Nat) (t : Nat) (h : D.length ≤ 4 * t) :
    (blockWordsAt D 0).drop t = List.replicate (16 - t) 0 := by
  apply List.ext_getElem
  · simp [blockWordsAt_length]
  · intro j hj1 hj2
    simp only [List.length_drop, blockWordsAt_length] at hj1
    simp only [List.getElem_drop, List.getElem_replicate]
    unfold blockWordsAt
    simp only [List.getElem_map, List.getElem_range]
    unfold wordLE
    simp only [Nat.zero_add]
    rw [byteAt_oob D _ (by omega), byteAt_oob D _ (by omega), byteAt_oob D _ (by omega),
      byteAt_oob D _ (by omega)]

/-- The output seed `ChunkState.output` produces for a characterized chunk
state: the chunk's partial-block compression parameters, with the stale
buffer words zero-padded away. -/
theorem ChunkInv_output (kw B : List Nat) (c fl : Nat) (cs : ChunkState)
    (hB : B ≠ []) (hle : B.length ≤ 1024) (hinv : ChunkInv kw B c fl cs) :
    (cs.output).1 = ⟨chunkBlocksCv kw B c fl ((B.length - 1) / 64),
      blockWordsAt (B.drop (64 * ((B.length - 1) / 64))) 0,
      B.length - 64 * ((B.length - 1) / 64), c,
      fl ||| (if (B.length - 1) / 64 = 0 then CHUNK_START else 0) ||| CHUNK_END⟩ := by
  obtain ⟨h1, h2, h3, h4, h5, h6, h7⟩ := hinv
  have hL1 : 1 ≤ B.length := List.length_pos.mpr hB
  have hDlen : (B.drop (64 * ((B.length - 1) / 64))).length =
      B.length - 64 * ((B.length - 1) / 64) := by
    rw [List.length_drop]
  unfold ChunkState.output ChunkState.zeroPad ChunkState.startFlag
  dsimp only
  rw [h4, h5, h1, h2, h3]
  have hwords : cs.blockWords.take ((B.length - 64 * ((B.length - 1) / 64) + 3) / 4) ++
      List.replicate (16 - (B.length - 64 * ((B.length - 1) / 64) + 3) / 4) 0 =
      blockWordsAt (B.drop (64 * ((B.length - 1) / 64))) 0 := by
    rw [h7, ← blockWordsAt_drop_zeros (B.drop (64 * ((B.length - 1) / 64)))
      ((B.length - 64 * ((B.length - 1) / 64) + 3) / 4) (by rw [hDlen]; omega)]
    exact List.take_append_drop _ _
  rw [hwords]

/-- `hashChunkWithWords` over a whole byte run is the block fold followed by
the `CHUNK_END` compression of the last (possibly partial) block. -/
theorem hashChunkWithWords_eq_chunkBlocks (B : List Nat) (c fl : Nat) (hB : B ≠ [])
    (hle : B.length ≤ 1024) :
    hashChunkWithWords B 0 B.length c fl =
      compressCv (chunkBlocksCv IV B c fl ((B.length - 1) / 64))
        (blockWordsAt B (64 * ((B.length - 1) / 64))) c
        (B.length - 64 * ((B.length - 1) / 64))
        (fl ||| (if (B.length - 1) / 64 = 0 then CHUNK_START else 0) ||| CHUNK_END) := by
  have hL1 : 1 ≤ B.length := List.length_pos.mpr hB
  unfold hashChunkWithWords
  dsimp only
  have htb : B.length / 64 + (if B.length % 64 = 0 then 0 else 1) = (B.length - 1) / 64 + 1 := by
    by_cases hmod : B.length % 64 = 0
    · rw [if_pos hmod]; omega
    · rw [if_neg hmod]; omega
  rw [htb, List.range_succ, List.foldl_append, List.foldl_cons, List.foldl_nil]
  have hmain : (List.range ((B.length - 1) / 64)).foldl
      (fun cv blockIdx =>
        compressCv cv (blockWordsAt B (0 + 64 * blockIdx)) c
          (if blockIdx = (B.length - 1) / 64 + 1 - 1 ∧ B.length % 64 ≠ 0 then B.length % 64
            else BLOCK_LEN)
          (fl ||| (if blockIdx = 0 then CHUNK_START else 0) |||
            (if blockIdx = (B.length - 1) / 64 + 1 - 1 then CHUNK_END else 0)))
      IV = chunkBlocksCv IV B c fl ((B.length - 1) / 64) := by
    unfold chunkBlocksCv
    apply List.foldl_ext
    intro acc i hi
    simp only [List.mem_range] at hi
    rw [if_neg (show ¬ (i = (B.length - 1) / 64 + 1 - 1 ∧ B.length % 64 ≠ 0) from by omega),
      if_neg (show ¬ (i = (B.length - 1) / 64 + 1 - 1) from by omega),
      Nat.or_zero, Nat.zero_add]
  rw [hmain, Nat.zero_add,
    if_pos (show (B.length - 1) / 64 = (B.length - 1) / 64 + 1 - 1 from by omega)]
  by_cases hmod : B.length % 64 = 0
  · rw [if_neg (show ¬ ((B.length - 1) / 64 = (B.length - 1) / 64 + 1 - 1 ∧
      B.length % 64 ≠ 0) from by simp [hmod])]
    rw [show (BLOCK_LEN : Nat) = B.length - 64 * ((B.length - 1) / 64) from by
      unfold BLOCK_LEN
      omega]
  · rw [if_pos (show ((B.length - 1) / 64 = (B.length - 1) / 64 + 1 - 1 ∧
      B.length % 64 ≠ 0) from ⟨by omega, hmod⟩)]
    rw [show B.length % 64 = B.length - 64 * ((B.length - 1) / 64) from by omega]

/-- `hashChunkRoot` over a whole byte run: block fold, then the root
compression of the last block with `CHUNK_END | ROOT`. -/
theorem hashChunkRoot_eq_chunkBlocks (B : List Nat) (c fl : Nat) (hB : B ≠ [])
    (hle : B.length ≤ 1024) :
    hashChunkRoot B 0 B.length c fl =
      compress16 (chunkBlocksCv IV B c fl ((B.length - 1) / 64))
        (blockWordsAt B (64 * ((B.length - 1) / 64))) c
        (B.length - 64 * ((B.length - 1) / 64))
        (fl ||| (if (B.length - 1) / 64 = 0 then CHUNK_START else 0) ||| CHUNK_END ||| ROOT) := by
  have hL1 : 1 ≤ B.length := List.length_pos.mpr hB
  unfold hashChunkRoot
  dsimp only
  have htb : max (B.length / 64 + (if B.length % 64 = 0 then 0 else 1)) 1 =
      (B.length - 1) / 64 + 1 := by
    by_cases hmod : B.length % 64 = 0
    · rw [if_pos hmod]; omega
    · rw [if_neg hmod]; omega
  rw [htb]
  have hmain : (List.range ((B.length - 1) / 64 + 1 - 1)).foldl
      (fun cv blockIdx =>
        compressCv cv (blockWordsAt B (0 + 64 * blockIdx)) c BLOCK_LEN
          (fl ||| (if blockIdx = 0 then CHUNK_START else 0)))
      IV = chunkBlocksCv IV B c fl ((B.length - 1) / 64) := by
    rw [show (B.length - 1) / 64 + 1 - 1 = (B.length - 1) / 64 from by omega]
    unfold chunkBlocksCv
    apply List.foldl_ext
    intro acc i hi
    rw [Nat.zero_add]
  rw [hmain]
  rw [show (B.length - 1) / 64 + 1 - 1 = (B.length - 1) / 64 from by omega]
  rw [show (0 : Nat) + 64 * ((B.length - 1) / 64) = 64 * ((B.length - 1) / 64) from by omega]
  have hlast : (if B.length = 0 then 0 else if B.length % 64 = 0 then BLOCK_LEN
      else B.length % 64) = B.length - 64 * ((B.length - 1) / 64) := by
    rw [if_neg (by omega)]
    by_cases hmod : B.length % 64 = 0
    · rw [if_pos hmod]
      unfold BLOCK_LEN
      omega
    · rw [if_neg hmod]
      omega
  rw [hlast]

/-- A chunk hash only reads its own bytes: shifting the offset out of a
`drop`. -/
theorem hashChunkWithWords_shift (X : List Nat) (off inputLen c fl : Nat) :
    hashChunkWithWords (X.drop off) 0 inputLen c fl =
      hashChunkWithWords X off inputLen c fl := by
  unfold hashChunkWithWords
  apply List.foldl_ext
  intro acc i _
  rw [Nat.zero_add, blockWordsAt_drop]

theorem hashChunkRoot_shift (X : List Nat) (off inputLen c fl : Nat) :
    hashChunkRoot (X.drop off) 0 inputLen c fl = hashChunkRoot X off inputLen c fl := by
  unfold hashChunkRoot
  dsimp only
  rw [Nat.zero_add, blockWordsAt_drop]
  refine congrArg (fun cv => compress16 cv _ _ _ _) ?_
  apply List.foldl_ext
  intro acc i _
  rw [Nat.zero_add, blockWordsAt_drop]

/-- A full chunk's hash is unchanged by appending bytes after it. -/
theorem hashChunkWithWords_append_full (X C : List Nat) (off c fl : Nat)
    (h : off + 1024 ≤ X.length) :
    hashChunkWithWords (X ++ C) off 1024 c fl = hashChunkWithWords X off 1024 c fl := by
  unfold hashChunkWithWords
  norm_num
  apply List.foldl_ext
  intro acc i hi
  simp only [List.mem_range] at hi
  rw [blockWordsAt_append_left X C _ (by omega)]

theorem chunkCvOf_append (X C : List Nat) (c : Nat) (h : 1024 * (c + 1) ≤ X.length) :
    chunkCvOf (X ++ C) c = chunkCvOf X c := by
  unfold chunkCvOf
  rw [show min 1024 ((X ++ C).length - 1024 * c) = 1024 from by simp; omega,
    show min 1024 (X.length - 1024 * c) = 1024 from by omega,
    hashChunkWithWords_append_full X C _ c 0 (by omega)]

/-- The CV stack the Hasher builds from the first `k` pushed chunks. -/
def hstackOf (input : List Nat) (k : Nat) : List (List Nat) :=
  (List.range k).foldl
    (fun st c => Hasher.addChunkCvLoop IV 0 st (chunkCvOf input c) (c + 1)) []

theorem hstackOf_append (X C : List Nat) (k : Nat) (h : 1024 * k ≤ X.length) :
    hstackOf (X ++ C) k = hstackOf X k := by
  unfold hstackOf
  apply List.foldl_ext
  intro acc c hc
  simp only [List.mem_range] at hc
  rw [chunkCvOf_append X C c (by omega)]

theorem hstackOf_succ (X : List Nat) (k : Nat) :
    hstackOf X (k + 1) =
      Hasher.addChunkCvLoop IV 0 (hstackOf X k) (chunkCvOf X k) (k + 1) := by
  unfold hstackOf
  rw [List.range_succ, List.foldl_append, List.foldl_cons, List.foldl_nil]

theorem hstackOf_length (X : List Nat) : ∀ k, (hstackOf X k).length = popcount k := by
  intro k
  induction k with
  | zero =>
    show ([] : List (List Nat)).length = popcount 0
    rw [popcount_zero]
    rfl
  | succ m ih =>
    rw [hstackOf_succ]
    exact addChunkCvLoop_length IV 0 (m + 1) _ _ (by omega) (by simpa using ih)

/-- The state of a plain-mode Hasher that has absorbed the non-empty byte
sequence `X` from fresh: the completed chunks' CVs are merged on the stack,
the open chunk holds the remaining bytes. -/
def HUpd (X : List Nat) (h : Hasher) : Prop :=
  h.keyWords = IV ∧ h.flags = 0 ∧
  ChunkInv IV (X.drop (1024 * ((X.length - 1) / 1024))) ((X.length - 1) / 1024) 0 h.chunkState ∧
  h.cvStack = hstackOf X ((X.length - 1) / 1024)

theorem HUpd_first (b : Nat) : HUpd [b] (freshHasher.feedByte b) := by
  have hfeed : freshHasher.feedByte b =
      { freshHasher with chunkState := (ChunkState.new IV 0 0).feedByte b } := by
    unfold Hasher.feedByte
    rw [if_neg (by
      show (ChunkState.new IV 0 0).len ≠ CHUNK_LEN
      rw [ChunkState.new_len]
      unfold CHUNK_LEN
      omega)]
    rfl
  rw [hfeed]
  refine ⟨rfl, rfl, ?_, ?_⟩
  · show ChunkInv IV ([b].drop (1024 * (([b].length - 1) / 1024))) (([b].length - 1) / 1024) 0
      ((ChunkState.new IV 0 0).feedByte b)
    rw [show (([b].length - 1) / 1024) = 0 from by simp, Nat.mul_zero, List.drop_zero]
    exact ChunkInv_first IV 0 0 b
  · show ([] : List (List Nat)) = hstackOf [b] (([b].length - 1) / 1024)
    rw [show (([b].length - 1) / 1024) = 0 from by simp]
    rfl

/-- One byte preserves the Hasher characterization. -/
theorem HUpd_feedByte (X : List Nat) (b : Nat) (h : Hasher) (hX : X ≠ [])
    (hinv : HUpd X h) : HUpd (X ++ [b]) (h.feedByte b) := by
  obtain ⟨hkw, hfl, hci, hst⟩ := hinv
  have hL1 : 1 ≤ X.length := List.length_pos.mpr hX
  have hBne : X.drop (1024 * ((X.length - 1) / 1024)) ≠ [] := by
    rw [← List.length_pos, List.length_drop]
    omega
  have hBlen : (X.drop (1024 * ((X.length - 1) / 1024))).length =
      X.length - 1024 * ((X.length - 1) / 1024) := by
    rw [List.length_drop]
  have hcslen : h.chunkState.len = X.length - 1024 * ((X.length - 1) / 1024) := by
    obtain ⟨e1, e2, e3, e4, e5, e6, e7⟩ := hci
    unfold ChunkState.len
    rw [e3, e4, hBlen]
    unfold BLOCK_LEN
    omega
  by_cases hfull : X.length - 1024 * ((X.length - 1) / 1024) = 1024
  · -- the open chunk is complete: emit it, then feed into a fresh chunk
    have hK : ((X ++ [b]).length - 1) / 1024 = (X.length - 1) / 1024 + 1 := by
      simp only [List.length_append, List.length_cons, List.length_nil]
      omega
    have hXlen : 1024 * ((X.length - 1) / 1024 + 1) = X.length := by omega
    have hemit : h.feedByte b = { h with
        cvStack := Hasher.addChunkCvLoop h.keyWords h.flags h.cvStack
          (compressCv ((h.chunkState.output).1).inputCv ((h.chunkState.output).1).blockWords
            ((h.chunkState.output).1).counter ((h.chunkState.output).1).blockLen
            ((h.chunkState.output).1).flags)
          (h.chunkState.chunkCounter + 1),
        chunkState := (ChunkState.new h.keyWords (h.chunkState.chunkCounter + 1)
          h.flags).feedByte b } := by
      unfold Hasher.feedByte
      rw [if_pos (by rw [hcslen, hfull]; rfl)]
      unfold Hasher.emitChunk
      rfl
    rw [hemit]
    have hcv : compressCv ((h.chunkState.output).1).inputCv ((h.chunkState.output).1).blockWords
        ((h.chunkState.output).1).counter ((h.chunkState.output).1).blockLen
        ((h.chunkState.output).1).flags = chunkCvOf X ((X.length - 1) / 1024) := by
      have heq := hashChunkWithWords_eq_chunkBlocks
        (X.drop (1024 * ((X.length - 1) / 1024))) ((X.length - 1) / 1024) 0 hBne
        (by omega)
      rw [hBlen, hfull] at heq
      rw [ChunkInv_output IV _ _ 0 _ hBne (by omega) hci]
      dsimp only
      rw [hBlen, hfull]
      unfold chunkCvOf
      rw [show min 1024 (X.length - 1024 * ((X.length - 1) / 1024)) = 1024 from by omega,
        ← hashChunkWithWords_shift X (1024 * ((X.length - 1) / 1024)) 1024 _ 0, heq,
        blockWordsAt_drop, Nat.add_zero]
    rw [hcv]
    obtain ⟨e1, _, _, _, _, _, _⟩ := hci
    refine ⟨hkw, hfl, ?_, ?_⟩
    · show ChunkInv IV _ _ 0 _
      rw [hK, show (1024 * ((X.length - 1) / 1024 + 1)) = X.length from hXlen]
      rw [show ((X ++ [b]).drop X.length) = [b] from by
        rw [show X.length = X.length + 0 from rfl]
        simp [List.drop_append]]
      rw [hkw, hfl, e1]
      exact ChunkInv_first IV _ 0 b
    · show Hasher.addChunkCvLoop h.keyWords h.flags h.cvStack _ _ = _
      rw [hK, hstackOf_succ, hstackOf_append X [b] _ (by omega),
        chunkCvOf_append X [b] _ (by omega), hkw, hfl, hst, e1]
  · -- room in the open chunk
    have hK : ((X ++ [b]).length - 1) / 1024 = (X.length - 1) / 1024 := by
      simp only [List.length_append, List.length_cons, List.length_nil]
      omega
    have hfeed : h.feedByte b = { h with chunkState := h.chunkState.feedByte b } := by
      unfold Hasher.feedByte
      rw [if_neg (by rw [hcslen]; unfold CHUNK_LEN; omega)]
    rw [hfeed]
    refine ⟨hkw, hfl, ?_, ?_⟩
    · show ChunkInv IV _ _ 0 _
      rw [hK, List.drop_append_of_le_length (by omega)]
      exact ChunkInv_feedByte IV _ _ 0 b _ hBne (by rw [hBlen]; omega) hci
    · show h.cvStack = _
      rw [hK, hstackOf_append X [b] _ (by omega), hst]

theorem HUpd_foldl : ∀ (D X : List Nat) (h : Hasher), X ≠ [] → HUpd X h →
    HUpd (X ++ D) (D.foldl Hasher.feedByte h) := by
  intro D
  induction D with
  | nil =>
    intro X h hX hinv
    simpa using hinv
  | cons d rest ih =>
    intro X h hX hinv
    rw [show X ++ d :: rest = (X ++ [d]) ++ rest from by simp, List.foldl_cons]
    exact ih (X ++ [d]) _ (by simp) (HUpd_feedByte X d h hX hinv)

/-- The characterization of `Hasher.update` on a fresh plain-mode hasher. -/
theorem HUpd_update (X : List Nat) (hX : X ≠ []) : HUpd X (freshHasher.update X) := by
  rw [Hasher.update_eq_foldl_of_inv freshHasher X (HInv_new IV 0)]
  match X, hX with
  | x :: rest, _ =>
    rw [List.foldl_cons]
    have := HUpd_foldl rest [x] (freshHasher.feedByte x) (by simp) (HUpd_first x)
    simpa using this

/-- Away from the deferred-root case, the one-shot merge loop is exactly the
Hasher's `addChunkCv` merge loop. -/
theorem mergePushSkip_false_eq (stack : List (List Nat)) :
    ∀ (cv : List Nat) (tc : Nat), 1 ≤ tc → stack.length = popcount (tc - 1) →
      mergePushSkip stack cv tc false = Hasher.addChunkCvLoop IV 0 stack cv tc := by
  induction stack with
  | nil =>
    intro cv tc h1 hlen
    have htc : tc = 1 := by
      have := popcount_eq_zero (tc - 1) (by simpa using hlen.symm)
      omega
    subst htc
    rw [mergePushSkip, Hasher.addChunkCvLoop, dif_neg (by omega)]
  | cons top rest ih =>
    intro cv tc h1 hlen
    rw [mergePushSkip]
    by_cases heven : tc % 2 = 0
    · rw [if_neg (by omega), if_neg (by simp)]
      rw [Hasher.addChunkCvLoop, dif_pos (show tc % 2 = 0 ∧ tc ≠ 0 from ⟨heven, by omega⟩)]
      simp only [List.tail_cons, List.headD_cons]
      have hpe := popcount_pred_even tc (by omega) heven
      simp only [List.length_cons] at hlen
      exact ih (parentCvOf IV 0 top cv) (tc / 2) (by
          by_contra hc
          have : tc / 2 = 0 := by omega
          omega)
        (by omega)
    · rw [if_pos (by omega)]
      rw [Hasher.addChunkCvLoop, dif_neg (by omega)]

/-- Merging a CV down a non-empty stack pair-by-pair with a final
`PARENT | ROOT` compression is the Hasher's finalize merge loop. -/
theorem pureJSFinal_cons_eq (outputLen : Nat) :
    ∀ (s : List (List Nat)) (cv : List Nat), s ≠ [] →
      pureJSFinal (cv :: s) outputLen =
        emitDigest (compress16 IV ((Hasher.finalizeMergeLoop IV 0 s cv).blockWords) 0 BLOCK_LEN
          (PARENT ||| ROOT)) outputLen := by
  intro s
  induction s with
  | nil =>
    intro cv h
    exact absurd rfl h
  | cons top rest ih =>
    intro cv _
    cases rest with
    | nil =>
      rw [pureJSFinal, if_pos (by simp)]
      rfl
    | cons t2 r2 =>
      rw [pureJSFinal, if_neg (by simp), ih _ (by simp)]
      rfl

/-- The deferred-root push followed by the one-shot pairwise finalization
computes the Hasher's root compression of the same stack. -/
theorem mergePushSkip_root_eq (outputLen : Nat) :
    ∀ (s : List (List Nat)) (K : Nat) (cv : List Nat), 1 ≤ K → s.length = popcount K →
      pureJSFinal (mergePushSkip s cv (K + 1) true) outputLen =
        emitDigest (compress16 IV ((Hasher.finalizeMergeLoop IV 0 s cv).blockWords) 0 BLOCK_LEN
          (PARENT ||| ROOT)) outputLen := by
  intro s
  induction s with
  | nil =>
    intro K cv hK hlen
    have := popcount_eq_zero K (by simpa using hlen.symm)
    omega
  | cons top rest ih =>
    intro K cv hK hlen
    rw [mergePushSkip]
    by_cases heven : (K + 1) % 2 = 0
    · rw [if_neg (by omega)]
      cases rest with
      | nil =>
        rw [if_pos (by simp)]
        exact pureJSFinal_cons_eq outputLen [top] cv (by simp)
      | cons t2 r2 =>
        rw [if_neg (by simp)]
        have hKodd : K % 2 = 1 := by omega
        have hpc : popcount K = popcount ((K - 1) / 2) + 1 := by
          rw [popcount_step K (by omega), show K / 2 = (K - 1) / 2 from by omega, hKodd]
        simp only [List.length_cons] at hlen
        have hlen' : (t2 :: r2).length = popcount ((K - 1) / 2) := by
          simp only [List.length_cons]
          omega
        have hK1 : 1 ≤ (K - 1) / 2 := by
          by_contra hc
          have h0 : (K - 1) / 2 = 0 := by omega
          rw [h0, popcount_zero] at hlen'
          simp at hlen'
        rw [show (K + 1) / 2 = (K - 1) / 2 + 1 from by omega,
          ih ((K - 1) / 2) (parentCvOf IV 0 top cv) hK1 hlen']
        rfl
    · rw [if_pos (by omega)]
      exact pureJSFinal_cons_eq outputLen (top :: rest) cv (by simp)

/-- The digest half of `Hasher.finalize` for at most 64 bytes. -/
theorem Hasher.finalize_fst (hh : Hasher) (N : Nat) (hN : N ≤ 64) :
    (hh.finalize N).1 = (bytesLE (compress16 ((hh.finalizeOutput).1).inputCv
      ((hh.finalizeOutput).1).blockWords ((hh.finalizeOutput).1).counter
      ((hh.finalizeOutput).1).blockLen (((hh.finalizeOutput).1).flags ||| ROOT))).take N := by
  unfold Hasher.finalize
  rcases hfo : hh.finalizeOutput with ⟨out, h2⟩
  dsimp only
  rw [if_pos hN]

theorem finalizeOutput_fst_empty (hh : Hasher) (he : hh.cvStack = []) :
    (hh.finalizeOutput).1 = (hh.chunkState.output).1 := by
  unfold Hasher.finalizeOutput
  rcases hco : hh.chunkState.output with ⟨out0, cs2⟩
  dsimp only
  rw [if_pos (by rw [he]; rfl)]

theorem finalizeOutput_fst_ne (hh : Hasher) (he : hh.cvStack ≠ []) :
    (hh.finalizeOutput).1 = Hasher.finalizeMergeLoop hh.keyWords hh.flags hh.cvStack
      (compressCv ((hh.chunkState.output).1).inputCv ((hh.chunkState.output).1).blockWords
        ((hh.chunkState.output).1).counter ((hh.chunkState.output).1).blockLen
        ((hh.chunkState.output).1).flags) := by
  unfold Hasher.finalizeOutput
  rcases hco : hh.chunkState.output with ⟨out0, cs2⟩
  dsimp only
  rw [if_neg (by simp [List.isEmpty_iff, he])]

theorem finalizeMergeLoop_inputCv (kw : List Nat) (fl : Nat) :
    ∀ (stack : List (List Nat)) (cv : List Nat),
      (Hasher.finalizeMergeLoop kw fl stack cv).inputCv = kw := by
  intro stack
  induction stack with
  | nil => intro cv; rfl
  | cons top rest ih =>
    intro cv
    cases rest with
    | nil => rfl
    | cons b r2 => exact ih _

theorem finalizeMergeLoop_blockLen (kw : List Nat) (fl : Nat) :
    ∀ (stack : List (List Nat)) (cv : List Nat),
      (Hasher.finalizeMergeLoop kw fl stack cv).blockLen = BLOCK_LEN := by
  intro stack
  induction stack with
  | nil => intro cv; rfl
  | cons top rest ih =>
    intro cv
    cases rest with
    | nil => rfl
    | cons b r2 => exact ih _

/-- The CV a characterized open chunk emits (its `output` compressed with
`CHUNK_END`) is the one-shot chunk CV at the same index. -/
theorem ChunkInv_emitCv (X : List Nat) (K : Nat) (cs : ChunkState)
    (hne : X.drop (1024 * K) ≠ [])
    (hle : X.length - 1024 * K ≤ 1024)
    (hinv : ChunkInv IV (X.drop (1024 * K)) K 0 cs) :
    compressCv ((cs.output).1).inputCv ((cs.output).1).blockWords ((cs.output).1).counter
      ((cs.output).1).blockLen ((cs.output).1).flags = chunkCvOf X K := by
  have hBlen : (X.drop (1024 * K)).length = X.length - 1024 * K := by
    rw [List.length_drop]
  have hL1 : 1 ≤ X.length - 1024 * K := by
    have := List.length_pos.mpr hne
    omega
  have heq := hashChunkWithWords_eq_chunkBlocks (X.drop (1024 * K)) K 0 hne (by omega)
  rw [hBlen] at heq
  rw [ChunkInv_output IV _ _ 0 _ hne (by omega) hinv]
  dsimp only
  rw [hBlen]
  unfold chunkCvOf
  rw [show min 1024 (X.length - 1024 * K) = X.length - 1024 * K from by omega,
    ← hashChunkWithWords_shift X (1024 * K) (X.length - 1024 * K) _ 0, heq,
    blockWordsAt_drop, Nat.add_zero]

/-- The one-shot stack fold over chunks before the last one builds the
Hasher's CV stack. -/
theorem oneShot_fold_eq_hstack (X : List Nat) (Np : Nat) :
    ∀ k, k + 1 ≤ Np →
      (List.range' 0 k).foldl (oneShotStep X Np) [] = hstackOf X k := by
  intro k
  induction k with
  | zero => intro _; rfl
  | succ m ih =>
    intro hm
    rw [List.range'_concat, List.foldl_append,
      show (0 : Nat) + 1 * m = m from by omega, List.foldl_cons, List.foldl_nil,
      ih (by omega)]
    unfold oneShotStep
    rw [show decide (m = Np - 1) = false from decide_eq_false (by omega)]
    rw [mergePushSkip_false_eq (hstackOf X m) (chunkCvOf X m) (m + 1) (by omega)
      (by rw [hstackOf_length]; simp)]
    rw [hstackOf_succ]

set_option maxRecDepth 100000 in
/-- The scalar one-shot hash equals the Hasher pipeline's digest for output
lengths up to 64 bytes. -/
theorem hashPureJS_eq_hasher (X : List Nat) (N : Nat) (hN : N ≤ 64) :
    hashPureJS X N = some (((freshHasher.update X).finalize N).1) := by
  by_cases hX : X = []
  · subst hX
    have hup : freshHasher.update [] = freshHasher := by
      rw [Hasher.update]
      rfl
    rw [hup, Hasher.finalize_fst freshHasher N hN,
      finalizeOutput_fst_empty freshHasher rfl]
    unfold hashPureJS
    dsimp only
    rw [if_pos (show ([] : List Nat).length = 0 from rfl)]
    unfold emitDigest
    rw [if_pos hN]
    refine congrArg (fun w => some ((bytesLE w).take N)) ?_
    decide
  · have hupd := HUpd_update X hX
    obtain ⟨hkw, hfl, hci, hst⟩ := hupd
    have hL1 : 1 ≤ X.length := List.length_pos.mpr hX
    have hBne : X.drop (1024 * ((X.length - 1) / 1024)) ≠ [] := by
      rw [← List.length_pos, List.length_drop]
      omega
    rw [Hasher.finalize_fst _ N hN]
    by_cases hK : (X.length - 1) / 1024 = 0
    · -- one chunk: the chunk itself is the root
      rw [hK] at hci hst
      simp only [Nat.mul_zero, List.drop_zero] at hci
      have hstack : (freshHasher.update X).cvStack = [] := by
        rw [hst]
        rfl
      rw [finalizeOutput_fst_empty _ hstack,
        ChunkInv_output IV X 0 0 _ hX (by omega) hci]
      dsimp only
      unfold hashPureJS
      dsimp only
      rw [if_neg (by omega),
        if_pos (show (X.length + 1023) / 1024 = 1 from by omega)]
      unfold emitDigest
      rw [if_pos hN]
      rw [hashChunkRoot_eq_chunkBlocks X 0 0 hX (by omega),
        blockWordsAt_drop, Nat.add_zero]
    · -- several chunks: merge the stack, then the parent root
      have hL1025 : 1024 < X.length := by omega
      rw [finalizeOutput_fst_ne _ (by
        rw [hst, ← List.length_pos, hstackOf_length]
        exact popcount_pos _ hK)]
      rw [hkw, hfl, hst,
        ChunkInv_emitCv X ((X.length - 1) / 1024) _ hBne (by omega) hci]
      rw [hashPureJS_stack X N hL1025,
        show (X.length + 1023) / 1024 = (X.length - 1) / 1024 + 1 from by omega,
        List.range'_concat, List.foldl_append,
        show (0 : Nat) + 1 * ((X.length - 1) / 1024) = (X.length - 1) / 1024 from by omega,
        List.foldl_cons, List.foldl_nil,
        oneShot_fold_eq_hstack X ((X.length - 1) / 1024 + 1) ((X.length - 1) / 1024) le_rfl]
      unfold oneShotStep
      rw [show decide ((X.length - 1) / 1024 = (X.length - 1) / 1024 + 1 - 1) = true from by simp]
      rw [mergePushSkip_root_eq N (hstackOf X ((X.length - 1) / 1024)) ((X.length - 1) / 1024)
        (chunkCvOf X ((X.length - 1) / 1024)) (by omega) (hstackOf_length X _)]
      unfold emitDigest
      rw [if_pos hN]
      rw [finalizeMergeLoop_inputCv, finalizeMergeLoop_blockLen, finalizeMergeLoop_counter,
        finalizeMergeLoop_flags, Nat.zero_or]

set_option maxRecDepth 100000 in
/-- **C10** (refinement_equivalence) — holds for output lengths 1..64 (the
range where the one-shot path can return at all): for every input X, every
N ∈ [1, 64] and either SIMD setting, the one-shot `hash(X, N)` returns
exactly the bytes of `new Hasher().update(X).finalize(N)`, even though the
one-shot path defers the root merge in its own Merkle-stack construction.
For N > 64 the one-shot path throws a RangeError (modelled `none`) while the
Hasher's `finalize` returns bytes, so the unbounded claim fails (see the
counterexample). -/
theorem hash_eq_hasher_finalize (X : List Nat) (N : Nat) (simd : Bool)
    (h1 : 1 ≤ N) (h2 : N ≤ 64) :
    hash simd X N = some (((freshHasher.update X).finalize N).1) := by
  have hps := hashPureJS_eq_hasher X N h2
  unfold hash
  by_cases hc : 4 * CHUNK_LEN ≤ X.length ∧ simd = true
  · rw [if_pos hc, hashSimd_eq_hashPureJS]
    exact hps
  · rw [if_neg hc]
    exact hps

/-- **C10, counterexample to the unbounded claim**: at N = 65 the one-shot
hash throws (`none`) and so differs from the Hasher's 65-byte digest. -/
theorem hash_one_shot_65_ne :
    hash false [0] 65 = none ∧
    hash false [0] 65 ≠ some (((freshHasher.update [0]).finalize 65).1) := by
  have h : hash false [0] 65 = none := rfl
  refine ⟨h, ?_⟩
  rw [h]
  exact fun hx => Option.noConfusion hx

/-- Witness: the corrected C10 equality at the concrete input `[7]`,
N = 32. -/
theorem hash_eq_hasher_finalize_witness :
    (1 : Nat) ≤ 32 ∧ (32 : Nat) ≤ 64 ∧
    hash false [7] 32 = some (((freshHasher.update [7]).finalize 32).1) :=
  ⟨by norm_num, by norm_num, hash_eq_hasher_finalize [7] 32 false (by norm_num) (by norm_num)⟩

end Blake3
